import Mathlib

/-!
Verification of the gravestench/dt1 DT1 tile-set decoder.

This file gives a shallow embedding, in Lean 4, of the decoding routines of
the repository (packages `pkg`, `v2` and the top-level aliases): the binary
stream pipeline (header, tile headers, block headers, block bodies) and the
two pixel-reconstruction algorithms (isometric and run-length).

Modelling conventions:
* Go byte slices become `List Nat` (each element a byte value).
* Go `int16`/`int32` values become `Int`.  Arithmetic whose operands the
  claims under verification pin to ranges where machine and unbounded
  arithmetic agree is modelled over unbounded integers; the v2
  pixel-offset computation, which a crafted file can overflow, is modelled
  with explicit `int32` wrapping (`i32`).
* A Go slice access that can panic (index out of range) is modelled by an
  `Option`-valued access: `none` models the panic.  A function returning
  `some` therefore performed no out-of-bounds access.
* The byte-stream cursor of github.com/gravestench/bitstream is an external
  collaborator of this repository; it is modelled from the spec (a
  sequential, seekable reader over an in-memory buffer whose reads fail when
  they run past the end of the buffer).
-/

namespace Dt1

/-! ## Little-endian integer decoding (bitstream's AsInt32 / AsInt16 / AsByte) -/

/-- Little-endian value of a byte list. -/
def bytesToNatLE : List Nat → Nat
  | [] => 0
  | b :: rest => b % 256 + 256 * bytesToNatLE rest

/-- Signed 32-bit interpretation of (up to) four little-endian bytes. -/
def asInt32 (bs : List Nat) : Int :=
  let u : Nat := bytesToNatLE bs % 2 ^ 32
  if u < 2 ^ 31 then (u : Int) else (u : Int) - 2 ^ 32

/-- Signed 16-bit interpretation of (up to) two little-endian bytes. -/
def asInt16 (bs : List Nat) : Int :=
  let u : Nat := bytesToNatLE bs % 2 ^ 16
  if u < 2 ^ 15 then (u : Int) else (u : Int) - 2 ^ 16

/-- Unsigned interpretation of little-endian bytes (AsUInt16 / AsByte). -/
def asUInt (bs : List Nat) : Nat := bytesToNatLE bs

/-- The 32-bit field stored at byte offset `off` of buffer `data`
(little-endian), as the decoder reads it. -/
def field32 (data : List Nat) (off : Nat) : Int :=
  asInt32 ((data.drop off).take 4)

/-! ## The byte-stream cursor

Modelled from the spec: the repository reads through
github.com/gravestench/bitstream, an external collaborator described in the
spec as a sequential, seekable reader over an in-memory byte buffer that
fails (`TruncatedInput`) whenever a read requests bytes past the end of the
buffer.  A read always advances the cursor by the requested amount; a value
read through a failed read is the Go zero value (the decode routines that
discard read errors use that value). -/

structure BStream where
  data : List Nat
  pos : Int
  deriving DecidableEq

/-- The bytes produced by `stream.Next(n).Bytes()`: `none` models a read
error (out-of-range position or running past the end). -/
def bsTake (s : BStream) (n : Nat) : Option (List Nat) :=
  if 0 ≤ s.pos ∧ s.pos + n ≤ s.data.length then
    some ((s.data.drop s.pos.toNat).take n)
  else
    none

/-- Cursor advance of `stream.Next(n)`. -/
def bsAdv (s : BStream) (n : Nat) : BStream :=
  ⟨s.data, s.pos + n⟩

/-- `stream.SetPosition(p)`. -/
def bsSetPosition (s : BStream) (p : Int) : BStream :=
  ⟨s.data, p⟩

/-- `stream.Next(4).Bytes().AsInt32()` (value part). -/
def bsInt32 (s : BStream) : Option Int :=
  (bsTake s 4).map asInt32

/-- `stream.Next(2).Bytes().AsInt16()` (value part). -/
def bsInt16 (s : BStream) : Option Int :=
  (bsTake s 2).map asInt16

/-- `stream.Next(2).Bytes().AsUInt16()` (value part). -/
def bsUInt16 (s : BStream) : Option Nat :=
  (bsTake s 2).map asUInt

/-- `stream.Next(1).Bytes().AsByte()` (value part). -/
def bsByte (s : BStream) : Option Nat :=
  (bsTake s 1).map asUInt

/-! ## Data model (`pkg.Block`, `pkg.Tile`, `pkg.DT1`)

`Block.format` stores the raw 16-bit format tag read from the block header
(`pkg/block.go` keeps the raw tag and exposes the `Format()` method;
`pkg/v2/dt1_tile.go` stores `BlockEncoding(formatValue)` unchanged). -/

structure Block where
  X : Int
  Y : Int
  GridX : Nat
  GridY : Nat
  format : Int
  EncodedData : List Nat
  Length : Int
  FileOffset : Int
  PixelData : List Nat
  deriving DecidableEq

/-- `pkg.BlockDataFormat`: RLE = 0, Isometric = 1. -/
inductive BlockDataFormat where
  | BlockFormatRLE
  | BlockFormatIsometric
  deriving DecidableEq

export BlockDataFormat (BlockFormatRLE BlockFormatIsometric)

/-- `pkg/block.go` `(b *Block) Format()`: tag 1 is Isometric, every other
tag is RLE.  `src/unnamed/part_000` lines 205-211 decode the header tag with
the same mapping. -/
def Block.Format (b : Block) : BlockDataFormat :=
  if b.format = 1 then BlockFormatIsometric else BlockFormatRLE

structure Tile where
  Direction : Int
  RoofHeight : Int
  MaterialFlags : Nat
  Height : Int
  Width : Int
  Type' : Int
  Style : Int
  Sequence : Int
  RarityFrameIndex : Int
  SubTileFlags : List Nat
  blockHeaderPointer : Int
  blockHeaderSize : Int
  Blocks : List Block
  deriving DecidableEq

structure DT1 where
  Tiles : List Tile
  deriving DecidableEq

/-- The zero `Block` (a freshly allocated `&Block{}`). -/
def defaultBlock : Block :=
  ⟨0, 0, 0, 0, 0, [], 0, 0, []⟩

/-! ## `pkg/tile.go` helpers: MinInt32, AbsInt32 and the per-tile y offset -/

/-- `pkg.MinInt32`. -/
def MinInt32 (a b : Int) : Int :=
  if a < b then a else b

/-- `pkg.AbsInt32`. -/
def AbsInt32 (a : Int) : Int :=
  if a < 0 then -a else a

/-- The vertical offset computed by `pkg/tile.go` `makePixelBuffer`
(lines 109-115): fold `MinInt32` over the blocks' `Y` starting from the
zero-initialised `tileYMinimum`, then take `AbsInt32`. -/
def tileYOffsetOf (blocks : List Block) : Int :=
  AbsInt32 (blocks.foldl (fun acc b => MinInt32 acc b.Y) 0)

/-- The container-scope offset of the second (pkg) `determineYOffset`
variant in `src/pkg/v2/dt1.go` (lines 284-300): per tile, fold the minimum
into the running offset, then negate it if negative before moving to the
next tile. -/
def determineYOffsetPkg (tiles : List Tile) : Int :=
  tiles.foldl
    (fun yOffset t =>
      let yOffset := t.Blocks.foldl
        (fun acc b => if b.Y < acc then b.Y else acc) yOffset
      if yOffset < 0 then -yOffset else yOffset)
    0

/-- The container-scope offset of the v2 `determineYOffset`
(`src/pkg/v2/dt1.go` lines 230-245): the raw minimum `Y` across all blocks
of all tiles, starting from `math.MaxInt32`; no absolute value is taken. -/
def determineYOffsetV2 (tiles : List Tile) : Int :=
  tiles.foldl
    (fun m t =>
      t.Blocks.foldl (fun m b => if b.Y < m then b.Y else m) m)
    (2 ^ 31 - 1)

/-! ## `pkg/block.go` ColorIndexAt (claim C10)

`w` is `block.image.Bounds().Dx()`.  The unguarded slice access
`block.PixelData[absIdx]` is modelled by `List.get?`; `none` models the
panic that an out-of-bounds access would be. -/

/-- `pkg/block.go` `(block *Block) ColorIndexAt(x, y)` for a block whose
`image` field is non-nil with bounds width `w`. -/
def ColorIndexAt (w : Int) (PixelData : List Nat) (x y : Int) : Option Nat :=
  let absIdx := y * w + x
  let absIdx := if absIdx < 0 then 0 else absIdx
  if (PixelData.length : Int) ≤ absIdx then
    some 0
  else
    PixelData.get? absIdx.toNat

/-! ## `pkg/tile.go` DecodeTileGfxData (lines 199-261)

The pixel buffer `pixels` is passed by pointer in Go; here the decoders
return the updated buffer together with the final payload cursor `idx`
(and, for the RLE decoder, the final `x` and `y` cursors).  The unguarded
slice writes `(*pixels)[offset] = block.EncodedData[idx]` are modelled by
bounds-checked operations returning `none` on an out-of-bounds access
(which in Go is a panic). -/

/-- The fixed per-row left insets of the isometric diamond (`xjump`). -/
def xjump : List Int := [14, 12, 10, 8, 6, 4, 2, 0, 2, 4, 6, 8, 10, 12, 14]

/-- The fixed per-row opaque pixel counts of the isometric diamond
(`nbpix`). -/
def nbpix : List Int := [4, 8, 12, 16, 20, 24, 28, 32, 28, 24, 20, 16, 12, 8, 4]

/-- The pixel offset the isometric decoder computes for pixel `k` of row
`r` of the diamond: the source expression
`((blockY + y + tileYOffset) * tileWidth) + (blockX + x)` with `y = r` and
`x = xjump[r] + k`. -/
def isoOffset (blockX blockY tileYOffset tileWidth : Int) (r k : Nat) : Int :=
  ((blockY + r + tileYOffset) * tileWidth) + (blockX + (xjump.getD r 0 + k))

/-- Row `r`'s opaque pixel count from the `nbpix` table, as a natural
number. -/
def nbpixN (r : Nat) : Nat :=
  (nbpix.getD r 0).toNat

/-- The total pixel count of diamond rows `y` and below (256 at row 0). -/
def nbpixSumFrom (y : Nat) : Int :=
  (nbpix.drop y).sum

/-- The inner loop of the isometric decoder: write `n` pixels of row `y`
starting at column `x`, consuming payload bytes from `idx` on.  The offset
expression is the source's
`((blockY + y + tileYOffset) * tileWidth) + (blockX + x)`. -/
def isoRun (enc pixels : List Nat) (blockX blockY tileYOffset tileWidth y : Int)
    (x : Int) (n : Nat) (idx : Nat) : Option (List Nat × Nat) :=
  match n with
  | 0 => some (pixels, idx)
  | m + 1 =>
    let offset : Int := ((blockY + y + tileYOffset) * tileWidth) + (blockX + x)
    if 0 ≤ offset ∧ offset.toNat < pixels.length then
      match enc.get? idx with
      | some v =>
        isoRun enc (pixels.set offset.toNat v) blockX blockY tileYOffset tileWidth y
          (x + 1) m (idx + 1)
      | none => none
    else
      none

/-- The outer loop of the isometric decoder (`for length > 0`), row index
`y`, remaining payload length `length` (initially 256).  Indexing `xjump[y]`
with `y` out of range is the Go panic, modelled as `none`. -/
def isoLoop (enc pixels : List Nat) (blockX blockY tileYOffset tileWidth : Int)
    (y : Nat) (length : Int) (idx : Nat) : Option (List Nat × Nat) :=
  if 0 < length then
    if hy : y < xjump.length then
      let x := xjump.get ⟨y, hy⟩
      if hn : y < nbpix.length then
        let n := nbpix.get ⟨y, hn⟩
        match isoRun enc pixels blockX blockY tileYOffset tileWidth y x n.toNat idx with
        | some (pixels', idx') =>
          isoLoop enc pixels' blockX blockY tileYOffset tileWidth (y + 1) (length - n) idx'
        | none => none
      else
        none
    else
      none
  else
    some (pixels, idx)
termination_by xjump.length - y

/-- The inner run loop of the RLE decoder: write `b2` pixels of row `y`
starting at column `x`; returns the updated buffer, payload cursor and
column cursor. -/
def rleRun (enc pixels : List Nat) (blockX blockY tileYOffset tileWidth y : Int)
    (x : Int) (b2 : Nat) (idx : Nat) : Option (List Nat × Nat × Int) :=
  match b2 with
  | 0 => some (pixels, idx, x)
  | m + 1 =>
    let offset : Int := ((blockY + y + tileYOffset) * tileWidth) + (blockX + x)
    if 0 ≤ offset ∧ offset.toNat < pixels.length then
      match enc.get? idx with
      | some v =>
        rleRun enc (pixels.set offset.toNat v) blockX blockY tileYOffset tileWidth y
          (x + 1) m (idx + 1)
      | none => none
    else
      none

/-- The outer loop of the RLE decoder (`pkg/tile.go` lines 237-260): read a
`(b1, b2)` pair; a zero pair ends the row, otherwise `b1` advances `x` and
`b2` pixels are copied.  Returns the buffer, payload cursor and the final
`(x, y)` cursor position. -/
def rleLoop (enc pixels : List Nat) (blockX blockY tileYOffset tileWidth : Int)
    (x y : Int) (idx : Nat) (length : Int) : Option (List Nat × Nat × Int × Int) :=
  if hl : 0 < length then
    match enc.get? idx, enc.get? (idx + 1) with
    | some b1, some b2 =>
      if b1 ||| b2 = 0 then
        rleLoop enc pixels blockX blockY tileYOffset tileWidth 0 (y + 1) (idx + 2)
          (length - 2)
      else
        match rleRun enc pixels blockX blockY tileYOffset tileWidth y (x + b1) b2
            (idx + 2) with
        | some (pixels', idx', x') =>
          rleLoop enc pixels' blockX blockY tileYOffset tileWidth x' y idx'
            (length - 2 - b2)
        | none => none
    | _, _ => none
  else
    some (pixels, idx, x, y)
termination_by length.toNat
decreasing_by
  · simp only [Int.toNat_lt_toNat hl]; omega
  · simp only [Int.toNat_lt_toNat hl]; omega

/-- Per-block dispatch of `pkg/tile.go` `DecodeTileGfxData` (lines 200-261):
an Isometric-format block runs the fixed 256-byte diamond decoder, any other
block runs the RLE decoder on `block.Length` payload bytes. -/
def DecodeTileGfxDataBlock (b : Block) (pixels : List Nat)
    (tileYOffset tileWidth : Int) : Option (List Nat × Nat) :=
  match b.Format with
  | BlockFormatIsometric =>
    isoLoop b.EncodedData pixels b.X b.Y tileYOffset tileWidth 0 256 0
  | BlockFormatRLE =>
    (rleLoop b.EncodedData pixels b.X b.Y tileYOffset tileWidth 0 0 0 b.Length).map
      (fun r => (r.1, r.2.1))

/-! ## `pkg/v2/dt1_tile_block.go` decoders (claim C9)

These variants carry explicit bounds guards (`break` on guard failure).
A guarded `break` is a normal loop exit and yields `some`; only a genuinely
unguarded out-of-bounds slice access yields `none` (the Go panic).

The pixel-offset computation is performed on `int32` values in Go and can
wrap around; it is modelled with an explicit wrap (`i32`) applied at every
`int32` operation of the offset expression, exactly as Go evaluates it. -/

/-- Wrapping `int32` arithmetic: the representative of `a` modulo `2^32`
in `[-2^31, 2^31)`. -/
def i32 (a : Int) : Int :=
  (a + 2 ^ 31) % 2 ^ 32 - 2 ^ 31

/-- Indexing a Go slice of int32 with an int index: negative indices and
indices past the end panic (`none`). -/
def listGetI (l : List Int) (i : Int) : Option Int :=
  if 0 ≤ i then l.get? i.toNat else none

/-- Go's int32 `max` helper from `src/pkg/v2/dt1.go`. -/
def goMax (a b : Int) : Int :=
  if a > b then a else b

/-- Inner pixel loop of v2 `decodeIsometric`: `pixelsToProcess` pixels of
row `currentY` starting at `currentX`.  The offset is computed in wrapping
`int32` arithmetic; the write is guarded above by
`pixelDataOffset >= len(block.PixelData)` (break), but a (wrapped) negative
offset is not guarded and would panic. -/
def v2isoRun (enc pixels : List Nat) (blockStartX blockStartY verticalOffset imageWidth currentY : Int)
    (currentX : Int) (pixelsToProcess : Nat) (dataCursor : Nat) : Option (List Nat × Nat) :=
  match pixelsToProcess with
  | 0 => some (pixels, dataCursor)
  | m + 1 =>
    let offset : Int :=
      i32 (i32 (i32 (i32 (blockStartY + currentY) + verticalOffset) * imageWidth) +
        i32 (blockStartX + currentX))
    if (pixels.length : Int) ≤ offset then
      some (pixels, dataCursor)
    else if 0 ≤ offset then
      match enc.get? dataCursor with
      | some v =>
        v2isoRun enc (pixels.set offset.toNat v) blockStartX blockStartY verticalOffset
          imageWidth currentY (currentX + 1) m (dataCursor + 1)
      | none => none
    else
      none

/-- Outer loop of v2 `decodeIsometric` (`dt1_tile_block.go` lines 65-97). -/
def v2isoLoop (enc pixels : List Nat) (blockStartX blockStartY verticalOffset imageWidth : Int)
    (currentY remainingDataLength : Int) (dataCursor : Nat) : Option (List Nat × Nat) :=
  if 0 < remainingDataLength then
    if 15 ≤ currentY ∨ 15 ≤ currentY then
      some (pixels, dataCursor)
    else
      match listGetI xjump currentY, listGetI nbpix currentY with
      | some currentX, some pixelsToProcess =>
        if (enc.length : Int) < (dataCursor : Int) + pixelsToProcess then
          some (pixels, dataCursor)
        else
          match v2isoRun enc pixels blockStartX blockStartY verticalOffset imageWidth
              currentY currentX pixelsToProcess.toNat dataCursor with
          | some (pixels', dataCursor') =>
            v2isoLoop enc pixels' blockStartX blockStartY verticalOffset imageWidth
              (currentY + 1) (remainingDataLength - pixelsToProcess) dataCursor'
          | none => none
      | _, _ => none
  else
    some (pixels, dataCursor)
termination_by (15 - currentY).toNat
decreasing_by omega

/-- v2 `(block *Block) decodeIsometric(imageWidth, verticalOffset)`: runs
the guarded diamond decoder over the block's data, returning the updated
`PixelData` (or `none` for a panic). -/
def v2decodeIsometric (b : Block) (imageWidth verticalOffset : Int) : Option (List Nat) :=
  (v2isoLoop b.EncodedData b.PixelData b.X b.Y verticalOffset imageWidth 0 256 0).map
    (fun r => r.1)

/-- Inner run loop of v2 `decodeRunLengthEncoded`: before each pixel the
column is wrapped (`currentX >= imageWidth` resets to column 0 of the next
row), then the offset is computed in wrapping `int32` arithmetic and the
write guarded above by `pixelDataOffset >= len(block.PixelData)` happens;
a (wrapped) negative offset is unguarded and would panic.  Returns buffer,
cursor and the updated `(x, y)` position. -/
def v2rleRun (enc pixels : List Nat) (blockStartX blockStartY verticalOffset imageWidth : Int)
    (currentX currentY : Int) (runLength : Nat) (dataCursor : Nat) :
    Option (List Nat × Nat × Int × Int) :=
  match runLength with
  | 0 => some (pixels, dataCursor, currentX, currentY)
  | m + 1 =>
    let p : Int × Int :=
      if imageWidth ≤ currentX then (0, currentY + 1) else (currentX, currentY)
    let offset : Int :=
      i32 (i32 (i32 (i32 (blockStartY + p.2) + verticalOffset) * imageWidth) +
        i32 (blockStartX + p.1))
    if (pixels.length : Int) ≤ offset then
      some (pixels, dataCursor, p.1, p.2)
    else if 0 ≤ offset then
      match enc.get? dataCursor with
      | some v =>
        v2rleRun enc (pixels.set offset.toNat v) blockStartX blockStartY verticalOffset
          imageWidth (p.1 + 1) p.2 m (dataCursor + 1)
      | none => none
    else
      none

/-- Outer loop of v2 `decodeRunLengthEncoded` (`dt1_tile_block.go` lines
113-167): both the run-header read and the run-data read are guarded by
explicit length checks that `break` out of the loop. -/
def v2rleLoop (enc pixels : List Nat) (blockStartX blockStartY verticalOffset imageWidth : Int)
    (currentX currentY : Int) (dataCursor : Nat) (remainingDataLength : Int) :
    Option (List Nat × Nat × Int × Int) :=
  if hl : 0 < remainingDataLength then
    if (enc.length : Int) ≤ (dataCursor : Int) + 1 then
      some (pixels, dataCursor, currentX, currentY)
    else
      match enc.get? dataCursor, enc.get? (dataCursor + 1) with
      | some runStartOffset, some runLength =>
        if runStartOffset ||| runLength = 0 then
          v2rleLoop enc pixels blockStartX blockStartY verticalOffset imageWidth
            0 (currentY + 1) (dataCursor + 2) (remainingDataLength - 2)
        else
          if (enc.length : Int) < (dataCursor : Int) + 2 + runLength then
            some (pixels, dataCursor + 2, currentX + runStartOffset, currentY)
          else
            match v2rleRun enc pixels blockStartX blockStartY verticalOffset imageWidth
                (currentX + runStartOffset) currentY runLength (dataCursor + 2) with
            | some (pixels', dataCursor', x', y') =>
              v2rleLoop enc pixels' blockStartX blockStartY verticalOffset imageWidth
                x' y' dataCursor' (goMax 0 (remainingDataLength - 2 - runLength))
            | none => none
      | _, _ => none
  else
    some (pixels, dataCursor, currentX, currentY)
termination_by remainingDataLength.toNat
decreasing_by
  · omega
  · simp only [goMax]; split <;> omega

/-- v2 `(block *Block) decodeRunLengthEncoded(imageWidth, verticalOffset)`. -/
def v2decodeRunLengthEncoded (b : Block) (imageWidth verticalOffset : Int) : Option (List Nat) :=
  (v2rleLoop b.EncodedData b.PixelData b.X b.Y verticalOffset imageWidth 0 0 0 b.Length).map
    (fun r => r.1)

/-! ## The decode pipeline of `src/unnamed/part_000` (package `pkg`)

Reads whose Go error value is discarded (`value, _ := stream.Next(...)`)
keep the read value when the read succeeds and fall back to the Go zero
value otherwise; only the reads whose error the source checks can make the
stage fail.  A Go `make` with negative length panics and is modelled as
`none`. -/

/-- `decodeDT1Version` (part_000 lines 90-104): both version reads discard
their error; the decode fails unless the pair equals (7, 6). -/
def decodeDT1Version (s : BStream) : Option BStream :=
  let ver1 := (bsInt32 s).getD 0
  let s := bsAdv s 4
  let ver2 := (bsInt32 s).getD 0
  let s := bsAdv s 4
  if ver1 ≠ 7 ∨ ver2 ≠ 6 then none else some s

/-- `decodeDT1Header` (part_000 lines 45-76): version check, 260 reserved
bytes, tile count, tile-table address, seek; allocates the tile slots. -/
def decodeDT1Header (s : BStream) : Option (Nat × BStream) :=
  match decodeDT1Version s with
  | none => none
  | some s =>
    match bsTake s 260 with
    | none => none
    | some _ =>
      let s := bsAdv s 260
      match bsInt32 s with
      | none => none
      | some numberOfTiles =>
        let s := bsAdv s 4
        match bsInt32 s with
        | none => none
        | some tileDataStartAddress =>
          let s := bsAdv s 4
          let s := bsSetPosition s tileDataStartAddress
          if numberOfTiles < 0 then none
          else some (numberOfTiles.toNat, s)

/-- The 25 single-byte sub-tile flag reads (errors discarded). -/
def readSubTileFlags (s : BStream) (n : Nat) : List Nat :=
  match n with
  | 0 => []
  | k + 1 => (bsByte s).getD 0 :: readSubTileFlags (bsAdv s 1) k

/-- One iteration of `decodeTilesStage1` (part_000 lines 130-171): all
per-field read errors are discarded; the only checked read is the final
12-byte reserved skip.  `make([]*Block, numBlocks)` panics when the count
is negative. -/
def decodeTileStage1 (s : BStream) : Option (Tile × BStream) :=
  let Direction := (bsInt32 s).getD 0
  let s := bsAdv s 4
  let RoofHeight := (bsInt16 s).getD 0
  let s := bsAdv s 2
  let materials := (bsUInt16 s).getD 0
  let s := bsAdv s 2
  let Height := (bsInt32 s).getD 0
  let s := bsAdv s 4
  let Width := (bsInt32 s).getD 0
  let s := bsAdv s 4
  let s := bsAdv s 4
  let Type' := (bsInt32 s).getD 0
  let s := bsAdv s 4
  let Style := (bsInt32 s).getD 0
  let s := bsAdv s 4
  let Sequence := (bsInt32 s).getD 0
  let s := bsAdv s 4
  let RarityFrameIndex := (bsInt32 s).getD 0
  let s := bsAdv s 4
  let s := bsAdv s 4
  let subTileFlags := readSubTileFlags s 25
  let s := bsAdv s 25
  let s := bsAdv s 7
  let blockHeaderPointer := (bsInt32 s).getD 0
  let s := bsAdv s 4
  let blockHeaderSize := (bsInt32 s).getD 0
  let s := bsAdv s 4
  let numBlocks := (bsInt32 s).getD 0
  let s := bsAdv s 4
  if numBlocks < 0 then
    none
  else
    match bsTake s 12 with
    | none => none
    | some _ =>
      let s := bsAdv s 12
      some (⟨Direction, RoofHeight, materials, Height, Width, Type', Style, Sequence,
        RarityFrameIndex, subTileFlags, blockHeaderPointer, blockHeaderSize,
        List.replicate numBlocks.toNat defaultBlock⟩, s)

/-- `decodeTilesStage1` (part_000 lines 106-174): decode `numTiles` tile
headers in file order. -/
def decodeTilesStage1 (s : BStream) (numTiles : Nat) : Option (List Tile × BStream) :=
  match numTiles with
  | 0 => some ([], s)
  | k + 1 =>
    match decodeTileStage1 s with
    | none => none
    | some (t, s1) =>
      match decodeTilesStage1 s1 k with
      | none => none
      | some (ts, s2) => some (t :: ts, s2)

/-- The per-block loop of `decodeBlockHeaders` (part_000 lines 190-221):
every per-field read error is discarded except the final 4-byte
`FileOffset` read, whose failure aborts the routine. -/
def decodeBlockHeadersLoop (s : BStream) (n : Nat) : Option (List Block × BStream) :=
  match n with
  | 0 => some ([], s)
  | k + 1 =>
    let X := (bsInt16 s).getD 0
    let s := bsAdv s 2
    let Y := (bsInt16 s).getD 0
    let s := bsAdv s 2
    let s := bsAdv s 2
    let GridX := (bsByte s).getD 0
    let s := bsAdv s 1
    let GridY := (bsByte s).getD 0
    let s := bsAdv s 1
    let formatValue := (bsInt16 s).getD 0
    let s := bsAdv s 2
    let Length := (bsInt32 s).getD 0
    let s := bsAdv s 4
    let s := bsAdv s 2
    match bsInt32 s with
    | none => none
    | some FileOffset =>
      let s := bsAdv s 4
      match decodeBlockHeadersLoop s k with
      | none => none
      | some (bs, s') =>
        some (⟨X, Y, GridX, GridY, formatValue, [], Length, FileOffset, []⟩ :: bs, s')

/-- `decodeBlockHeaders` (part_000 lines 176-224): seek to the tile's
block-header pointer, then decode one header per existing block slot. -/
def decodeBlockHeaders (s : BStream) (t : Tile) : Option (Tile × BStream) :=
  let s := bsSetPosition s t.blockHeaderPointer
  match decodeBlockHeadersLoop s t.Blocks.length with
  | none => none
  | some (bs, s') => some ({ t with Blocks := bs }, s')

/-- The per-block loop of `decodeBlockBodies` (part_000 lines 227-235):
seek to `blockHeaderPointer + FileOffset` and read `Length` payload bytes;
the read error is checked. -/
def decodeBlockBodiesLoop (s : BStream) (blockHeaderPointer : Int) (blocks : List Block) :
    Option (List Block × BStream) :=
  match blocks with
  | [] => some ([], s)
  | b :: rest =>
    let s := bsSetPosition s (blockHeaderPointer + b.FileOffset)
    if b.Length < 0 then
      none
    else
      match bsTake s b.Length.toNat with
      | none => none
      | some encodedData =>
        let s := bsAdv s b.Length.toNat
        match decodeBlockBodiesLoop s blockHeaderPointer rest with
        | none => none
        | some (bs, s') => some ({ b with EncodedData := encodedData } :: bs, s')

/-- `decodeBlockBodies` (part_000 lines 226-238). -/
def decodeBlockBodies (s : BStream) (t : Tile) : Option (Tile × BStream) :=
  match decodeBlockBodiesLoop s t.blockHeaderPointer t.Blocks with
  | none => none
  | some (bs, s') => some ({ t with Blocks := bs }, s')

/-- `decodeTilesStage2` (part_000 lines 240-252): per tile, block headers
then block bodies. -/
def decodeTilesStage2 (s : BStream) (tiles : List Tile) : Option (List Tile × BStream) :=
  match tiles with
  | [] => some ([], s)
  | t :: rest =>
    match decodeBlockHeaders s t with
    | none => none
    | some (t1, s1) =>
      match decodeBlockBodies s1 t1 with
      | none => none
      | some (t2, s2) =>
        match decodeTilesStage2 s2 rest with
        | none => none
        | some (ts, s') => some (t2 :: ts, s')

/-- `decodeDT1Body` (part_000 lines 78-88). -/
def decodeDT1Body (s : BStream) (numTiles : Nat) : Option (List Tile × BStream) :=
  match decodeTilesStage1 s numTiles with
  | none => none
  | some (tiles, s1) => decodeTilesStage2 s1 tiles

/-- `FromBytes` (part_000 lines 13-26): header then body; any error yields
no container. -/
def FromBytes (fileData : List Nat) : Option DT1 :=
  match decodeDT1Header ⟨fileData, 0⟩ with
  | none => none
  | some (numTiles, s) =>
    match decodeDT1Body s numTiles with
    | none => none
    | some (tiles, _) => some ⟨tiles⟩

/-! ## The pkg pixel-reconstruction pass (second half of `src/pkg/v2/dt1.go`,
`decodeTileGraphics`, lines 259-281): per block, allocate a tile-sized
pixel buffer and run the format-selected decoder. -/

/-- Decode one block's graphics: `PixelData` is allocated tile-sized
(`make` panics when `tw*th` is negative), then the isometric decoder runs
for format tag 1 and the RLE decoder for every other tag. -/
def decodeBlockGraphics (b : Block) (tw th yOffset : Int) : Option Block :=
  if tw * th < 0 then
    none
  else
    let pixelData := List.replicate (tw * th).toNat 0
    if b.format = 1 then
      (isoLoop b.EncodedData pixelData b.X b.Y yOffset tw 0 256 0).map
        (fun r => { b with PixelData := r.1 })
    else
      (rleLoop b.EncodedData pixelData b.X b.Y yOffset tw 0 0 0 b.Length).map
        (fun r => { b with PixelData := r.1 })

/-- The per-block loop of the graphics pass for one tile. -/
def tileBlocksGraphics (blocks : List Block) (tw th yOffset : Int) : Option (List Block) :=
  match blocks with
  | [] => some []
  | b :: rest =>
    match decodeBlockGraphics b tw th yOffset with
    | none => none
    | some b' => (tileBlocksGraphics rest tw th yOffset).map (fun bs => b' :: bs)

/-- One tile of the graphics pass: negative heights contribute their
magnitude to the buffer size. -/
def decodeTileGraphicsTile (t : Tile) (yOffset : Int) : Option Tile :=
  let tw := t.Width
  let th := if t.Height < 0 then -t.Height else t.Height
  (tileBlocksGraphics t.Blocks tw th yOffset).map (fun bs => { t with Blocks := bs })

/-- The per-tile loop of the graphics pass. -/
def decodeTileGraphicsLoop (tiles : List Tile) (yOffset : Int) : Option (List Tile) :=
  match tiles with
  | [] => some []
  | t :: rest =>
    match decodeTileGraphicsTile t yOffset with
    | none => none
    | some t' => (decodeTileGraphicsLoop rest yOffset).map (fun ts => t' :: ts)

/-- `decodeTileGraphics` (pkg variant): compute the shared vertical offset,
then decode every block of every tile. -/
def decodeTileGraphics (tiles : List Tile) : Option (List Tile) :=
  decodeTileGraphicsLoop tiles (determineYOffsetPkg tiles)

/-! ## Auxiliary lemmas -/

theorem foldl_MinInt32_le (ys : List Int) :
    ∀ a : Int, ys.foldl MinInt32 a ≤ a ∧ ∀ y ∈ ys, ys.foldl MinInt32 a ≤ y := by
  induction ys with
  | nil => intro a; exact ⟨le_refl a, by simp⟩
  | cons z t ih =>
    intro a
    have h := ih (MinInt32 a z)
    have hz : MinInt32 a z ≤ a ∧ MinInt32 a z ≤ z := by unfold MinInt32; split <;> omega
    refine ⟨le_trans ?_ hz.1, ?_⟩
    · simpa using h.1
    · intro y hy
      rcases List.mem_cons.mp hy with rfl | hy'
      · exact le_trans (by simpa using h.1) hz.2
      · simpa using h.2 y hy'

theorem le_foldl_MinInt32 (ys : List Int) :
    ∀ a c : Int, c ≤ a → (∀ y ∈ ys, c ≤ y) → c ≤ ys.foldl MinInt32 a := by
  induction ys with
  | nil => intro a c hca _; simpa using hca
  | cons z t ih =>
    intro a c hca h
    have hz : c ≤ z := h z (List.mem_cons_self z t)
    have : c ≤ MinInt32 a z := by unfold MinInt32; split <;> omega
    simpa using ih (MinInt32 a z) c this (fun y hy => h y (List.mem_cons_of_mem z hy))

theorem rleLoop_allZero (enc pixels : List Nat) (bX bY yOff w : Int) :
    ∀ (m : Nat) (y : Int) (idx : Nat),
      (∀ j, j < 2 * m → enc.get? (idx + j) = some 0) →
      rleLoop enc pixels bX bY yOff w 0 y idx (2 * (m : Int)) =
        some (pixels, idx + 2 * m, 0, y + (m : Int)) := by
  intro m
  induction m with
  | zero => intro y idx _; rw [rleLoop]; simp
  | succ p ih =>
    intro y idx h
    have h0 : enc.get? (idx + 0) = some 0 := h 0 (by omega)
    have h1 : enc.get? (idx + 1) = some 0 := h 1 (by omega)
    rw [rleLoop]
    have hpos : (0 : Int) < 2 * ((p + 1 : Nat) : Int) := by push_cast; omega
    rw [dif_pos hpos]
    simp only [Nat.add_zero] at h0
    simp only [h0, h1]
    rw [show 2 * ((p + 1 : Nat) : Int) - 2 = 2 * (p : Int) by push_cast; ring]
    rw [ih (y + 1) (idx + 2) (fun j hj => by
      have hh := h (2 + j) (by omega)
      rwa [show idx + (2 + j) = idx + 2 + j by omega] at hh)]
    simp
    omega

theorem bsTake_pos (data : List Nat) (p : Int) (n : Nat) (hp : 0 ≤ p)
    (h : p + n ≤ (data.length : Int)) :
    bsTake ⟨data, p⟩ n = some ((data.drop p.toNat).take n) := by
  rw [bsTake, if_pos ⟨hp, h⟩]

theorem decodeDT1Version_eq (data : List Nat) (h8 : 8 ≤ data.length) :
    decodeDT1Version ⟨data, 0⟩ =
      if field32 data 0 ≠ 7 ∨ field32 data 4 ≠ 6 then none
      else some ⟨data, 8⟩ := by
  rw [decodeDT1Version]
  rw [show (bsInt32 ⟨data, 0⟩).getD 0 = field32 data 0 by
    rw [bsInt32, bsTake_pos data 0 4 (by norm_num) (by push_cast; omega)]
    simp [field32]]
  rw [show bsAdv ⟨data, 0⟩ 4 = ⟨data, 4⟩ by simp [bsAdv]]
  rw [show (bsInt32 ⟨data, 4⟩).getD 0 = field32 data 4 by
    rw [bsInt32, bsTake_pos data 4 4 (by norm_num) (by push_cast; omega)]
    simp [field32]]
  rw [show bsAdv ⟨data, 4⟩ 4 = ⟨data, 8⟩ by simp [bsAdv]]

theorem decodeBlockHeadersLoop_isSome_iff (data : List Nat) :
    ∀ (n : Nat) (p : Int),
      (decodeBlockHeadersLoop ⟨data, p⟩ n).isSome = true ↔
        ∀ i < n, 0 ≤ p + 20 * i + 16 ∧ p + 20 * i + 20 ≤ (data.length : Int) := by
  intro n
  induction n with
  | zero => intro p; simp [decodeBlockHeadersLoop]
  | succ k ih =>
    intro p
    rw [decodeBlockHeadersLoop]
    simp only [bsAdv]
    norm_num
    ring_nf
    by_cases hc : 0 ≤ 16 + p ∧ 20 + p ≤ (data.length : Int)
    · have hfo : bsInt32 ⟨data, 16 + p⟩ =
          some (asInt32 ((data.drop (16 + p).toNat).take 4)) := by
        rw [bsInt32, bsTake_pos data (16 + p) 4 hc.1 (by push_cast; omega)]
        rfl
      simp only [hfo]
      rcases hloop : decodeBlockHeadersLoop ⟨data, 20 + p⟩ k with _ | ⟨bs, s'⟩
      · simp only [Option.isSome_none]
        constructor
        · intro habs; exact absurd habs (by simp)
        · intro hall
          have hsome : (decodeBlockHeadersLoop ⟨data, 20 + p⟩ k).isSome = true := by
            rw [ih (20 + p)]
            intro i hik
            have := hall (i + 1) (by omega)
            push_cast at this ⊢
            omega
          rw [hloop] at hsome
          exact absurd hsome (by simp)
      · simp only [Option.isSome_some, true_iff]
        intro i hik
        have hall := (ih (20 + p)).mp (by rw [hloop]; rfl)
        match i with
        | 0 => push_cast; omega
        | j + 1 =>
          have := hall j (by omega)
          push_cast at this ⊢
          omega
    · have hfo : bsInt32 ⟨data, 16 + p⟩ = none := by
        rw [bsInt32, bsTake, if_neg (by push_cast at hc ⊢; omega)]
        rfl
      simp only [hfo, Option.isSome_none]
      constructor
      · intro habs; exact absurd habs (by simp)
      · intro hall
        have h0 := hall 0 (by omega)
        push_cast at h0
        exact absurd (by constructor <;> omega : 0 ≤ 16 + p ∧ 20 + p ≤ (data.length : Int)) hc

theorem bsTake_eq_some_cond {s : BStream} {n : Nat} {bs : List Nat}
    (h : bsTake s n = some bs) : 0 ≤ s.pos ∧ s.pos + n ≤ s.data.length := by
  rw [bsTake] at h
  split_ifs at h with c
  exact c

theorem decodeTileStage1_some (data : List Nat) (p : Int) (t : Tile) (s' : BStream)
    (hp : 0 ≤ p) (h : decodeTileStage1 ⟨data, p⟩ = some (t, s')) :
    s' = ⟨data, 96 + p⟩ ∧ (t.Blocks.length : Int) = field32 data (80 + p).toNat := by
  rw [decodeTileStage1] at h
  simp only [bsAdv] at h
  norm_num at h
  ring_nf at h
  obtain ⟨hnb, h⟩ := h
  rcases htk : bsTake ⟨data, 84 + p⟩ 12 with _ | bytes
  · rw [htk] at h
    exact absurd h (by simp)
  · rw [htk] at h
    simp only [Option.some.injEq, Prod.mk.injEq] at h
    obtain ⟨ht, hs⟩ := h
    have hcond := bsTake_eq_some_cond htk
    have hnbv : bsInt32 ⟨data, 80 + p⟩ =
        some (asInt32 ((data.drop (80 + p).toNat).take 4)) := by
      rw [bsInt32, bsTake_pos data (80 + p) 4 (by omega) (by push_cast at hcond ⊢; omega)]
      rfl
    refine ⟨hs.symm, ?_⟩
    rw [← ht]
    simp only [List.length_replicate]
    rw [field32]
    rw [hnbv] at hnb ⊢
    simp only [Option.getD_some] at hnb ⊢
    omega

theorem decodeTilesStage1_spec (data : List Nat) :
    ∀ (numTiles : Nat) (p : Int) (tiles : List Tile) (s' : BStream),
      0 ≤ p →
      decodeTilesStage1 ⟨data, p⟩ numTiles = some (tiles, s') →
      tiles.length = numTiles ∧
      ∀ i t, tiles.get? i = some t →
        (t.Blocks.length : Int) = field32 data (p + 96 * i + 80).toNat := by
  intro n
  induction n with
  | zero =>
    intro p tiles s' hp h
    rw [show decodeTilesStage1 ⟨data, p⟩ 0 = some ([], ⟨data, p⟩) from rfl] at h
    simp only [Option.some.injEq, Prod.mk.injEq] at h
    obtain ⟨h1, _⟩ := h
    refine ⟨by rw [← h1]; rfl, ?_⟩
    intro i t ht
    rw [← h1] at ht
    simp at ht
  | succ k ih =>
    intro p tiles s' hp h
    rw [show decodeTilesStage1 ⟨data, p⟩ (k + 1) =
        (match decodeTileStage1 ⟨data, p⟩ with
          | none => none
          | some (t, s1) =>
            match decodeTilesStage1 s1 k with
            | none => none
            | some (ts, s2) => some (t :: ts, s2)) from rfl] at h
    rcases h1 : decodeTileStage1 ⟨data, p⟩ with _ | ⟨t1, s1⟩
    · simp only [h1] at h
      exact absurd h (by simp)
    · simp only [h1] at h
      obtain ⟨hs1, hlen1⟩ := decodeTileStage1_some data p t1 s1 hp h1
      subst hs1
      rcases h2 : decodeTilesStage1 ⟨data, 96 + p⟩ k with _ | ⟨ts, s2⟩
      · simp only [h2] at h
        exact absurd h (by simp)
      · simp only [h2, Option.some.injEq, Prod.mk.injEq] at h
        obtain ⟨htl, _⟩ := h
        have ihr := ih (96 + p) ts s2 (by omega) h2
        constructor
        · rw [← htl]
          simp [ihr.1]
        · intro i t ht
          rw [← htl] at ht
          match i, ht with
          | 0, ht =>
            simp only [List.get?_cons_zero, Option.some.injEq] at ht
            rw [← ht]
            rw [show p + 96 * ((0 : Nat) : Int) + 80 = 80 + p by push_cast; ring]
            exact hlen1
          | j + 1, ht =>
            simp only [List.get?_cons_succ] at ht
            have hj := ihr.2 j t ht
            rw [show 96 + p + 96 * (j : Int) + 80 = p + 96 * ((j + 1 : Nat) : Int) + 80 by
              push_cast; ring] at hj
            exact hj

theorem decodeBlockHeadersLoop_length :
    ∀ (n : Nat) (s : BStream) (bs : List Block) (s' : BStream),
      decodeBlockHeadersLoop s n = some (bs, s') → bs.length = n := by
  intro n
  induction n with
  | zero =>
    intro s bs s' h
    rw [show decodeBlockHeadersLoop s 0 = some ([], s) from rfl] at h
    simp only [Option.some.injEq, Prod.mk.injEq] at h
    rw [← h.1]
    rfl
  | succ k ih =>
    intro s bs s' h
    rw [decodeBlockHeadersLoop] at h
    rcases hfo : bsInt32 (bsAdv (bsAdv (bsAdv (bsAdv (bsAdv (bsAdv (bsAdv (bsAdv s 2) 2) 2)
        1) 1) 2) 4) 2) with _ | fo
    · rw [hfo] at h
      exact absurd h (by simp)
    · rw [hfo] at h
      simp only at h
      rcases hrec : decodeBlockHeadersLoop (bsAdv (bsAdv (bsAdv (bsAdv (bsAdv (bsAdv (bsAdv
          (bsAdv (bsAdv s 2) 2) 2) 1) 1) 2) 4) 2) 4) k with _ | ⟨bs1, s1⟩
      · rw [hrec] at h
        exact absurd h (by simp)
      · rw [hrec] at h
        simp only [Option.some.injEq, Prod.mk.injEq] at h
        rw [← h.1]
        simp [ih _ bs1 s1 hrec]

theorem decodeBlockHeaders_length (s : BStream) (t : Tile) (t' : Tile) (s' : BStream)
    (h : decodeBlockHeaders s t = some (t', s')) :
    t'.Blocks.length = t.Blocks.length := by
  rw [decodeBlockHeaders] at h
  rcases hl : decodeBlockHeadersLoop (bsSetPosition s t.blockHeaderPointer) t.Blocks.length
    with _ | ⟨bs, s1⟩
  · rw [hl] at h
    exact absurd h (by simp)
  · rw [hl] at h
    simp only [Option.some.injEq, Prod.mk.injEq] at h
    rw [← h.1]
    exact decodeBlockHeadersLoop_length _ _ bs s1 hl

theorem decodeBlockBodiesLoop_length :
    ∀ (blocks : List Block) (s : BStream) (bhp : Int) (bs : List Block) (s' : BStream),
      decodeBlockBodiesLoop s bhp blocks = some (bs, s') → bs.length = blocks.length := by
  intro blocks
  induction blocks with
  | nil =>
    intro s bhp bs s' h
    rw [show decodeBlockBodiesLoop s bhp [] = some ([], s) from rfl] at h
    simp only [Option.some.injEq, Prod.mk.injEq] at h
    rw [← h.1]
  | cons b rest ih =>
    intro s bhp bs s' h
    rw [decodeBlockBodiesLoop] at h
    split_ifs at h with hneg
    rcases htk : bsTake (bsSetPosition s (bhp + b.FileOffset)) b.Length.toNat with _ | bytes
    · rw [htk] at h
      exact absurd h (by simp)
    · rw [htk] at h
      simp only at h
      rcases hrec : decodeBlockBodiesLoop
          (bsAdv (bsSetPosition s (bhp + b.FileOffset)) b.Length.toNat) bhp rest
        with _ | ⟨bs1, s1⟩
      · rw [hrec] at h
        exact absurd h (by simp)
      · rw [hrec] at h
        simp only [Option.some.injEq, Prod.mk.injEq] at h
        rw [← h.1]
        simp [ih _ bhp bs1 s1 hrec]

theorem decodeBlockBodies_length (s : BStream) (t : Tile) (t' : Tile) (s' : BStream)
    (h : decodeBlockBodies s t = some (t', s')) :
    t'.Blocks.length = t.Blocks.length := by
  rw [decodeBlockBodies] at h
  rcases hl : decodeBlockBodiesLoop s t.blockHeaderPointer t.Blocks with _ | ⟨bs, s1⟩
  · rw [hl] at h
    exact absurd h (by simp)
  · rw [hl] at h
    simp only [Option.some.injEq, Prod.mk.injEq] at h
    rw [← h.1]
    exact decodeBlockBodiesLoop_length _ _ _ bs s1 hl

theorem decodeTilesStage2_spec :
    ∀ (tiles : List Tile) (s : BStream) (tiles' : List Tile) (s' : BStream),
      decodeTilesStage2 s tiles = some (tiles', s') →
      tiles'.length = tiles.length ∧
      ∀ i t t', tiles.get? i = some t → tiles'.get? i = some t' →
        t'.Blocks.length = t.Blocks.length := by
  intro tiles
  induction tiles with
  | nil =>
    intro s tiles' s' h
    rw [show decodeTilesStage2 s [] = some ([], s) from rfl] at h
    simp only [Option.some.injEq, Prod.mk.injEq] at h
    obtain ⟨h1, _⟩ := h
    rw [← h1]
    exact ⟨rfl, by intro i t t' ht; simp at ht⟩
  | cons t rest ih =>
    intro s tiles' s' h
    rw [decodeTilesStage2] at h
    rcases h1 : decodeBlockHeaders s t with _ | ⟨t1, s1⟩
    · rw [h1] at h
      exact absurd h (by simp)
    · rw [h1] at h
      simp only at h
      rcases h2 : decodeBlockBodies s1 t1 with _ | ⟨t2, s2⟩
      · rw [h2] at h
        exact absurd h (by simp)
      · rw [h2] at h
        simp only at h
        rcases h3 : decodeTilesStage2 s2 rest with _ | ⟨ts, s3⟩
        · rw [h3] at h
          exact absurd h (by simp)
        · rw [h3] at h
          simp only [Option.some.injEq, Prod.mk.injEq] at h
          obtain ⟨htl, _⟩ := h
          have ihr := ih s2 ts s3 h3
          have hlen2 : t2.Blocks.length = t.Blocks.length := by
            rw [decodeBlockBodies_length s1 t1 t2 s2 h2,
              decodeBlockHeaders_length s t t1 s1 h1]
          constructor
          · rw [← htl]
            simp [ihr.1]
          · intro i ta tb hta htb
            rw [← htl] at htb
            match i, hta, htb with
            | 0, hta, htb =>
              simp only [List.get?_cons_zero, Option.some.injEq] at hta htb
              rw [← hta, ← htb]
              exact hlen2
            | j + 1, hta, htb =>
              simp only [List.get?_cons_succ] at hta htb
              exact ihr.2 j ta tb hta htb

theorem tileBlocksGraphics_length :
    ∀ (blocks : List Block) (tw th yOff : Int) (bs : List Block),
      tileBlocksGraphics blocks tw th yOff = some bs → bs.length = blocks.length := by
  intro blocks
  induction blocks with
  | nil =>
    intro tw th yOff bs h
    rw [show tileBlocksGraphics [] tw th yOff = some [] from rfl] at h
    simp only [Option.some.injEq] at h
    rw [← h]
  | cons b rest ih =>
    intro tw th yOff bs h
    rw [tileBlocksGraphics] at h
    rcases h1 : decodeBlockGraphics b tw th yOff with _ | b1
    · rw [h1] at h
      exact absurd h (by simp)
    · rw [h1] at h
      simp only at h
      rcases h2 : tileBlocksGraphics rest tw th yOff with _ | bs1
      · rw [h2] at h
        exact absurd h (by simp)
      · rw [h2] at h
        simp only [Option.map_some', Option.some.injEq] at h
        rw [← h]
        simp [ih tw th yOff bs1 h2]

theorem decodeTileGraphicsLoop_spec :
    ∀ (tiles : List Tile) (yOff : Int) (tiles' : List Tile),
      decodeTileGraphicsLoop tiles yOff = some tiles' →
      tiles'.length = tiles.length ∧
      ∀ i t t', tiles.get? i = some t → tiles'.get? i = some t' →
        t'.Blocks.length = t.Blocks.length := by
  intro tiles
  induction tiles with
  | nil =>
    intro yOff tiles' h
    rw [show decodeTileGraphicsLoop [] yOff = some [] from rfl] at h
    simp only [Option.some.injEq] at h
    rw [← h]
    exact ⟨rfl, by intro i t t' ht; simp at ht⟩
  | cons t rest ih =>
    intro yOff tiles' h
    rw [decodeTileGraphicsLoop] at h
    rcases h1 : decodeTileGraphicsTile t yOff with _ | t1
    · rw [h1] at h
      exact absurd h (by simp)
    · rw [h1] at h
      simp only at h
      rcases h2 : decodeTileGraphicsLoop rest yOff with _ | ts
      · rw [h2] at h
        exact absurd h (by simp)
      · rw [h2] at h
        simp only [Option.map_some', Option.some.injEq] at h
        have htl := h
        have ihr := ih yOff ts h2
        have hlen1 : t1.Blocks.length = t.Blocks.length := by
          rw [decodeTileGraphicsTile] at h1
          rcases hb : tileBlocksGraphics t.Blocks t.Width
              (if t.Height < 0 then -t.Height else t.Height) yOff with _ | bs
          · rw [hb] at h1
            exact absurd h1 (by simp)
          · rw [hb] at h1
            simp only [Option.map_some', Option.some.injEq] at h1
            rw [← h1]
            exact tileBlocksGraphics_length _ _ _ _ bs hb
        constructor
        · rw [← htl]
          simp [ihr.1]
        · intro i ta tb hta htb
          rw [← htl] at htb
          match i, hta, htb with
          | 0, hta, htb =>
            simp only [List.get?_cons_zero, Option.some.injEq] at hta htb
            rw [← hta, ← htb]
            exact hlen1
          | j + 1, hta, htb =>
            simp only [List.get?_cons_succ] at hta htb
            exact ihr.2 j ta tb hta htb

theorem isoRun_spec (enc : List Nat) (V : Nat) (bX bY yOff w y : Int) :
    ∀ (n : Nat) (x : Int) (idx : Nat) (pixels : List Nat),
      (∀ j, j < n → enc.get? (idx + j) = some V) →
      (∀ j, j < n →
        0 ≤ ((bY + y + yOff) * w) + (bX + (x + (j : Int))) ∧
        (((bY + y + yOff) * w) + (bX + (x + (j : Int)))).toNat < pixels.length) →
      ∃ pixels', isoRun enc pixels bX bY yOff w y x n idx = some (pixels', idx + n) ∧
        pixels'.length = pixels.length ∧
        ∀ p : Nat,
          ((∃ j, j < n ∧ (p : Int) = ((bY + y + yOff) * w) + (bX + (x + (j : Int)))) →
            pixels'.get? p = some V) ∧
          ((∀ j, j < n → (p : Int) ≠ ((bY + y + yOff) * w) + (bX + (x + (j : Int)))) →
            pixels'.get? p = pixels.get? p) := by
  intro n
  induction n with
  | zero =>
    intro x idx pixels _ _
    refine ⟨pixels, rfl, rfl, ?_⟩
    intro p
    constructor
    · rintro ⟨j, hj, _⟩
      omega
    · intro _
      rfl
  | succ m ih =>
    intro x idx pixels hv hb
    have hb0 := hb 0 (by omega)
    have hoff0 : ((bY + y + yOff) * w) + (bX + (x + ((0 : Nat) : Int))) =
        ((bY + y + yOff) * w) + (bX + x) := by push_cast; ring
    rw [hoff0] at hb0
    have hv0 : enc.get? idx = some V := by simpa using hv 0 (by omega)
    obtain ⟨pixels', heq, hlen, hchar⟩ := ih (x + 1) (idx + 1)
      (pixels.set (((bY + y + yOff) * w) + (bX + x)).toNat V)
      (fun j hj => by
        have := hv (j + 1) (by omega)
        rwa [show idx + (j + 1) = idx + 1 + j by omega] at this)
      (fun j hj => by
        have := hb (j + 1) (by omega)
        rw [show x + ((j + 1 : Nat) : Int) = x + 1 + (j : Int) by push_cast; ring] at this
        simpa using this)
    refine ⟨pixels', ?_, by rw [hlen]; simp, ?_⟩
    · rw [isoRun]
      simp only [if_pos hb0, hv0]
      rw [heq]
      show some (pixels', idx + 1 + m) = some (pixels', idx + (m + 1))
      congr 2
      omega
    · intro p
      constructor
      · rintro ⟨j, hj, hp⟩
        match j, hp with
        | 0, hp =>
          rw [hoff0] at hp
          by_cases hrest : ∃ j, j < m ∧ (p : Int) =
              ((bY + y + yOff) * w) + (bX + (x + 1 + (j : Int)))
          · exact (hchar p).1 (by
              obtain ⟨j', hj', hp'⟩ := hrest
              exact ⟨j', hj', by push_cast; push_cast at hp'; omega⟩)
          · have hne : ∀ j, j < m → (p : Int) ≠
                ((bY + y + yOff) * w) + (bX + (x + 1 + (j : Int))) := by
              intro j hj hcon
              exact hrest ⟨j, hj, hcon⟩
            rw [(hchar p).2 (fun j hj => by
              have := hne j hj
              push_cast at this ⊢
              omega)]
            have hpn : p = (((bY + y + yOff) * w) + (bX + x)).toNat := by omega
            rw [hpn, List.get?_eq_getElem?, List.getElem?_set_eq_of_lt _ hb0.2]
        | j + 1, hp =>
          exact (hchar p).1 ⟨j, by omega, by push_cast; push_cast at hp; omega⟩
      · intro hne
        have h0 := hne 0 (by omega)
        rw [hoff0] at h0
        rw [(hchar p).2 (fun j hj => by
          have := hne (j + 1) (by omega)
          push_cast at this ⊢
          omega)]
        rw [List.get?_eq_getElem?, List.get?_eq_getElem?,
          List.getElem?_set_ne (by omega)]

theorem isoLoop_spec (enc : List Nat) (V : Nat) (bX bY yOff w : Int) (N : Nat)
    (henc : ∀ j, j < 256 → enc.get? j = some V) :
    ∀ (f : Nat) (y : Nat), 15 - y ≤ f → y ≤ 15 →
      ∀ (pixels : List Nat) (idx : Nat),
        pixels.length = N →
        (idx : Int) + nbpixSumFrom y = 256 →
        (∀ r, y ≤ r → r < 15 → ∀ k, k < nbpixN r →
          0 ≤ isoOffset bX bY yOff w r k ∧ (isoOffset bX bY yOff w r k).toNat < N) →
        ∃ pixels', isoLoop enc pixels bX bY yOff w y (nbpixSumFrom y) idx =
            some (pixels', 256) ∧
          pixels'.length = N ∧
          ∀ p : Nat,
            ((∃ r, y ≤ r ∧ r < 15 ∧ ∃ k, k < nbpixN r ∧
                (p : Int) = isoOffset bX bY yOff w r k) → pixels'.get? p = some V) ∧
            ((∀ r, y ≤ r → r < 15 → ∀ k, k < nbpixN r →
                (p : Int) ≠ isoOffset bX bY yOff w r k) → pixels'.get? p = pixels.get? p) := by
  have hsucc : ∀ r, r < 15 → nbpixSumFrom r = nbpix.getD r 0 + nbpixSumFrom (r + 1) := by
    decide
  have hposn : ∀ r, r < 15 → 0 < nbpix.getD r 0 := by decide
  have hnn : ∀ r, r < 16 → 0 ≤ nbpixSumFrom r := by decide
  have hnbN : ∀ r, (nbpixN r : Int) = max (nbpix.getD r 0) 0 := by
    intro r
    rw [nbpixN]
    omega
  intro f
  induction f with
  | zero =>
    intro y hf hy pixels idx hpixlen hidx hin
    have hy15 : y = 15 := by omega
    subst hy15
    rw [show nbpixSumFrom 15 = 0 from rfl] at hidx ⊢
    rw [isoLoop, if_neg (by omega : ¬ (0 : Int) < 0)]
    refine ⟨pixels, by rw [show idx = 256 by omega], hpixlen, ?_⟩
    intro p
    constructor
    · rintro ⟨r, hyr, hr15, _⟩
      omega
    · intro _
      rfl
  | succ g ih =>
    intro y hf hy pixels idx hpixlen hidx hin
    by_cases hylt : y < 15
    · have hy15 : y < xjump.length := by
        rw [show xjump.length = 15 from rfl]
        omega
      have hn15 : y < nbpix.length := by
        rw [show nbpix.length = 15 from rfl]
        omega
      have hgetx : xjump.get ⟨y, hy15⟩ = xjump.getD y 0 := by
        rw [List.getD, List.get?_eq_get hy15]
        rfl
      have hgetn : nbpix.get ⟨y, hn15⟩ = nbpix.getD y 0 := by
        rw [List.getD, List.get?_eq_get hn15]
        rfl
      obtain ⟨pixels1, hrun, hlen1, hchar1⟩ := isoRun_spec enc V bX bY yOff w y
        (nbpixN y) (xjump.getD y 0) idx pixels
        (fun j hj => henc (idx + j) (by
          have h1 := hsucc y hylt
          have h2 := hnn (y + 1) (by omega)
          have h3 := hnbN y
          have h4 := hposn y hylt
          omega))
        (fun j hj => by
          have := hin y (le_refl y) hylt j hj
          rw [hpixlen]
          exact this)
      obtain ⟨pixels2, hloop2, hlen2, hchar2⟩ := ih (y + 1) (by omega) (by omega)
        pixels1 (idx + nbpixN y) (by rw [hlen1, hpixlen])
        (by
          have h1 := hsucc y hylt
          have h3 := hnbN y
          have h4 := hposn y hylt
          push_cast
          omega)
        (fun r hyr hr15 k hk => hin r (by omega) hr15 k hk)
      refine ⟨pixels2, ?_, hlen2, ?_⟩
      · rw [isoLoop, if_pos (by
          have h1 := hsucc y hylt
          have h2 := hnn (y + 1) (by omega)
          have h3 := hposn y hylt
          omega : (0 : Int) < nbpixSumFrom y)]
        rw [dif_pos hy15, dif_pos hn15]
        simp only [hgetx, hgetn]
        rw [show (nbpix.getD y 0).toNat = nbpixN y from rfl]
        simp only [hrun]
        rw [show nbpixSumFrom y - nbpix.getD y 0 = nbpixSumFrom (y + 1) by
          have := hsucc y hylt
          omega]
        exact hloop2
      · intro p
        constructor
        · rintro ⟨r, hyr, hr15, k, hk, hp⟩
          rcases Nat.lt_or_ge y r with hgt | hle
          · exact (hchar2 p).1 ⟨r, by omega, hr15, k, hk, hp⟩
          · have hry : r = y := by omega
            subst hry
            by_cases hrest : ∃ r', r + 1 ≤ r' ∧ r' < 15 ∧ ∃ k', k' < nbpixN r' ∧
                (p : Int) = isoOffset bX bY yOff w r' k'
            · exact (hchar2 p).1 hrest
            · rw [(hchar2 p).2 (fun r' h1 h2 k' hk' hcon =>
                hrest ⟨r', h1, h2, k', hk', hcon⟩)]
              exact (hchar1 p).1 ⟨k, hk, hp⟩
        · intro hne
          rw [(hchar2 p).2 (fun r h1 h2 k hk => hne r (by omega) h2 k hk)]
          exact (hchar1 p).2 (fun j hj => hne y (le_refl y) hylt j hj)
    · have hy15 : y = 15 := by omega
      subst hy15
      rw [show nbpixSumFrom 15 = 0 from rfl] at hidx ⊢
      rw [isoLoop, if_neg (by omega : ¬ (0 : Int) < 0)]
      refine ⟨pixels, by rw [show idx = 256 by omega], hpixlen, ?_⟩
      intro p
      constructor
      · rintro ⟨r, hyr, hr15, _⟩
        omega
      · intro _
        rfl

theorem i32_add_multiple (a k : Int) : i32 (a + 2 ^ 32 * k) = i32 a := by
  rw [i32, i32]
  omega

theorem i32_spec (a : Int) : ∃ k, i32 a = a + 2 ^ 32 * k := by
  refine ⟨-((a + 2 ^ 31) / 2 ^ 32), ?_⟩
  rw [i32]
  omega

theorem i32_add_left (a b : Int) : i32 (i32 a + b) = i32 (a + b) := by
  obtain ⟨k, hk⟩ := i32_spec a
  rw [hk, show a + 2 ^ 32 * k + b = a + b + 2 ^ 32 * k by ring, i32_add_multiple]

theorem i32_add_right (a b : Int) : i32 (a + i32 b) = i32 (a + b) := by
  obtain ⟨k, hk⟩ := i32_spec b
  rw [hk, show a + (b + 2 ^ 32 * k) = a + b + 2 ^ 32 * k by ring, i32_add_multiple]

theorem i32_mul_left (a b : Int) : i32 (i32 a * b) = i32 (a * b) := by
  obtain ⟨k, hk⟩ := i32_spec a
  rw [hk, show (a + 2 ^ 32 * k) * b = a * b + 2 ^ 32 * (k * b) by ring, i32_add_multiple]

theorem i32_eq_self (a : Int) (h1 : -(2 ^ 31) ≤ a) (h2 : a < 2 ^ 31) : i32 a = a := by
  rw [i32]
  omega

theorem v2offset_eq (Y y vOff w X x : Int) :
    i32 (i32 (i32 (i32 (Y + y) + vOff) * w) + i32 (X + x)) =
      i32 ((Y + y + vOff) * w + (X + x)) := by
  rw [i32_add_left (Y + y) vOff, i32_mul_left (Y + y + vOff) w,
    i32_add_left ((Y + y + vOff) * w) (i32 (X + x)), i32_add_right]

theorem v2isoRun_safe (enc : List Nat) :
    ∀ (n : Nat) (pixels : List Nat) (X Y vOff w y x : Int) (c : Nat),
      0 ≤ X → 0 ≤ Y + y + vOff → 0 ≤ w → 0 ≤ x → y ≤ 14 → x + n ≤ 46 →
      (Y + vOff + 14) * w + (X + 46) < 2 ^ 31 →
      c + n ≤ enc.length →
      ∃ pixels' c', v2isoRun enc pixels X Y vOff w y x n c = some (pixels', c') ∧
        pixels'.length = pixels.length ∧ c' ≤ c + n := by
  intro n
  induction n with
  | zero =>
    intro pixels X Y vOff w y x c _ _ _ _ _ _ _ _
    exact ⟨pixels, c, rfl, rfl, by omega⟩
  | succ m ih =>
    intro pixels X Y vOff w y x c hX hY hw hx hy14 hxn hbound hc
    have hE0 : 0 ≤ (Y + y + vOff) * w + (X + x) :=
      add_nonneg (mul_nonneg hY hw) (add_nonneg hX hx)
    have hmul : (Y + y + vOff) * w ≤ (Y + vOff + 14) * w :=
      mul_le_mul_of_nonneg_right (by omega) hw
    have hE31 : (Y + y + vOff) * w + (X + x) < 2 ^ 31 := by omega
    have hkey : i32 (i32 (i32 (i32 (Y + y) + vOff) * w) + i32 (X + x)) =
        (Y + y + vOff) * w + (X + x) := by
      rw [v2offset_eq]
      exact i32_eq_self _ (by omega) hE31
    rcases le_or_lt (pixels.length : Int) ((Y + y + vOff) * w + (X + x)) with hbreak | hlt
    · refine ⟨pixels, c, ?_, rfl, by omega⟩
      rw [v2isoRun]
      simp only [hkey, if_pos hbreak]
    · have hcl : c < enc.length := by omega
      have henc : enc.get? c = some (enc.get ⟨c, hcl⟩) := List.get?_eq_get hcl
      obtain ⟨p', c', heq, hlen, hc'⟩ := ih
        (pixels.set (((Y + y + vOff) * w) + (X + x)).toNat (enc.get ⟨c, hcl⟩))
        X Y vOff w y (x + 1) (c + 1) hX hY hw (by omega) hy14 (by omega) hbound (by omega)
      refine ⟨p', c', ?_, by rw [hlen]; simp, by omega⟩
      rw [v2isoRun]
      simp only [hkey, if_neg (not_le.mpr hlt), if_pos hE0, henc]
      exact heq

theorem v2isoLoop_safe (enc : List Nat) :
    ∀ (f : Nat) (y : Int), 15 - y ≤ (f : Int) → 0 ≤ y →
      ∀ (pixels : List Nat) (X Y vOff w : Int) (remaining : Int) (c : Nat),
        0 ≤ X → 0 ≤ Y + vOff → 0 ≤ w →
        (Y + vOff + 14) * w + (X + 46) < 2 ^ 31 →
        c ≤ enc.length →
        ∃ r, v2isoLoop enc pixels X Y vOff w y remaining c = some r := by
  have hx46 : ∀ r, r < 15 → xjump.getD r 0 + nbpix.getD r 0 ≤ 46 := by decide
  intro f
  induction f with
  | zero =>
    intro y hf hy pixels X Y vOff w remaining c _ _ _ _ _
    by_cases hrem : 0 < remaining
    · rw [v2isoLoop, if_pos hrem, if_pos (Or.inl (by omega : (15 : Int) ≤ y))]
      exact ⟨_, rfl⟩
    · rw [v2isoLoop, if_neg hrem]
      exact ⟨_, rfl⟩
  | succ k ih =>
    intro y hf hy pixels X Y vOff w remaining c hX hY hw hbound hc
    by_cases hrem : 0 < remaining
    · by_cases h15 : (15 : Int) ≤ y
      · rw [v2isoLoop, if_pos hrem, if_pos (Or.inl h15)]
        exact ⟨_, rfl⟩
      · have hxl : y.toNat < xjump.length := by
          rw [show xjump.length = 15 from rfl]
          omega
        have hnl : y.toNat < nbpix.length := by
          rw [show nbpix.length = 15 from rfl]
          omega
        have hgx : listGetI xjump y = some (xjump.get ⟨y.toNat, hxl⟩) := by
          rw [listGetI, if_pos hy, List.get?_eq_get hxl]
        have hgn : listGetI nbpix y = some (nbpix.get ⟨y.toNat, hnl⟩) := by
          rw [listGetI, if_pos hy, List.get?_eq_get hnl]
        have hgdx : xjump.get ⟨y.toNat, hxl⟩ = xjump.getD y.toNat 0 := by
          rw [List.getD, List.get?_eq_get hxl]
          rfl
        have hgdn : nbpix.get ⟨y.toNat, hnl⟩ = nbpix.getD y.toNat 0 := by
          rw [List.getD, List.get?_eq_get hnl]
          rfl
        have hxnn : 0 ≤ xjump.get ⟨y.toNat, hxl⟩ :=
          (by decide : ∀ v ∈ xjump, 0 ≤ v) _ (List.get_mem xjump _ _)
        have hnnn : 0 ≤ nbpix.get ⟨y.toNat, hnl⟩ :=
          (by decide : ∀ v ∈ nbpix, 0 ≤ v) _ (List.get_mem nbpix _ _)
        have hsum46 : xjump.get ⟨y.toNat, hxl⟩ +
            ((nbpix.get ⟨y.toNat, hnl⟩).toNat : Int) ≤ 46 := by
          have := hx46 y.toNat (by omega)
          rw [hgdx, hgdn]
          omega
        by_cases hguard : (enc.length : Int) < (c : Int) + nbpix.get ⟨y.toNat, hnl⟩
        · rw [v2isoLoop, if_pos hrem, if_neg (by omega : ¬ ((15 : Int) ≤ y ∨ (15 : Int) ≤ y))]
          simp only [hgx, hgn, if_pos hguard]
          exact ⟨_, rfl⟩
        · obtain ⟨p', c', heq, hlen, hc'⟩ := v2isoRun_safe enc
            (nbpix.get ⟨y.toNat, hnl⟩).toNat pixels X Y vOff w y (xjump.get ⟨y.toNat, hxl⟩)
            c hX (by omega) hw hxnn (by omega) (by omega) hbound (by omega)
          obtain ⟨r, hr⟩ := ih (y + 1) (by omega) (by omega) p' X Y vOff w
            (remaining - nbpix.get ⟨y.toNat, hnl⟩) c' hX hY hw hbound (by omega)
          refine ⟨r, ?_⟩
          rw [v2isoLoop, if_pos hrem, if_neg (by omega : ¬ ((15 : Int) ≤ y ∨ (15 : Int) ≤ y))]
          simp only [hgx, hgn, if_neg (not_lt.mpr (by omega : (c : Int) +
            nbpix.get ⟨y.toNat, hnl⟩ ≤ (enc.length : Int))), heq]
          exact hr
    · rw [v2isoLoop, if_neg hrem]
      exact ⟨_, rfl⟩

theorem v2rleRun_safe (enc : List Nat) (Ymax : Int) :
    ∀ (n : Nat) (pixels : List Nat) (X Y vOff w x y : Int) (c : Nat),
      0 ≤ X → 0 ≤ Y + vOff → 0 ≤ w → 0 ≤ x → 0 ≤ y →
      y + n ≤ Ymax →
      (Y + vOff + Ymax) * w + (X + w) < 2 ^ 31 →
      c + n ≤ enc.length →
      ∃ pixels' c' x' y',
        v2rleRun enc pixels X Y vOff w x y n c = some (pixels', c', x', y') ∧
        pixels'.length = pixels.length ∧ c' ≤ c + n ∧ 0 ≤ x' ∧ 0 ≤ y' ∧
        y' ≤ y + n ∧ y' + (c : Int) ≤ y + 1 + (c' : Int) := by
  intro n
  induction n with
  | zero =>
    intro pixels X Y vOff w x y c _ _ _ hx hy _ _ _
    exact ⟨pixels, c, x, y, rfl, rfl, by omega, hx, hy, by omega, by omega⟩
  | succ m ih =>
    intro pixels X Y vOff w x y c hX hY hw hx hy hym hbound hc
    obtain ⟨px, py, hp, hpx, hpy, hpy1, hpxw⟩ :
        ∃ px py, (if w ≤ x then ((0 : Int), y + 1) else (x, y)) = (px, py) ∧
          0 ≤ px ∧ 0 ≤ py ∧ py ≤ y + 1 ∧ px ≤ w := by
      split_ifs with hwx <;> exact ⟨_, _, rfl, by omega, by omega, by omega, by omega⟩
    have hE0 : 0 ≤ (Y + py + vOff) * w + (X + px) :=
      add_nonneg (mul_nonneg (by omega) hw) (add_nonneg hX hpx)
    have hmul : (Y + py + vOff) * w ≤ (Y + vOff + Ymax) * w :=
      mul_le_mul_of_nonneg_right (by omega) hw
    have hE31 : (Y + py + vOff) * w + (X + px) < 2 ^ 31 := by omega
    have hkey : i32 (i32 (i32 (i32 (Y + py) + vOff) * w) + i32 (X + px)) =
        (Y + py + vOff) * w + (X + px) := by
      rw [v2offset_eq]
      exact i32_eq_self _ (by omega) hE31
    rcases le_or_lt (pixels.length : Int) ((Y + py + vOff) * w + (X + px)) with hbreak | hlt
    · refine ⟨pixels, c, px, py, ?_, rfl, by omega, hpx, hpy, by omega, by omega⟩
      rw [v2rleRun]
      simp only [hp, hkey, if_pos hbreak]
    · have hcl : c < enc.length := by omega
      have henc : enc.get? c = some (enc.get ⟨c, hcl⟩) := List.get?_eq_get hcl
      obtain ⟨p', c', x', y', heq, hlen, hc', hx', hy', hyA, hyB⟩ := ih
        (pixels.set (((Y + py + vOff) * w) + (X + px)).toNat (enc.get ⟨c, hcl⟩))
        X Y vOff w (px + 1) py (c + 1) hX hY hw (by omega) hpy (by omega) hbound (by omega)
      refine ⟨p', c', x', y', ?_, by rw [hlen]; simp, by omega, hx', hy', by omega, by omega⟩
      rw [v2rleRun]
      simp only [hp, hkey, if_neg (not_le.mpr hlt), if_pos hE0, henc]
      exact heq

theorem v2rleLoop_safe (enc : List Nat) (Ymax : Int) :
    ∀ (f : Nat) (remaining : Int), remaining.toNat ≤ f →
      ∀ (pixels : List Nat) (X Y vOff w x y : Int) (c : Nat),
        0 ≤ X → 0 ≤ Y + vOff → 0 ≤ w → 0 ≤ x → 0 ≤ y → c ≤ enc.length →
        y + ((enc.length : Int) - c) + remaining ≤ Ymax →
        (Y + vOff + Ymax) * w + (X + w) < 2 ^ 31 →
        ∃ r, v2rleLoop enc pixels X Y vOff w x y c remaining = some r := by
  intro f
  induction f with
  | zero =>
    intro remaining hfr pixels X Y vOff w x y c _ _ _ _ _ _ _ _
    rw [v2rleLoop, dif_neg (by omega : ¬ (0 : Int) < remaining)]
    exact ⟨_, rfl⟩
  | succ k ih =>
    intro remaining hfr pixels X Y vOff w x y c hX hY hw hx hy hc hinv hbound
    by_cases hrem : 0 < remaining
    · by_cases hg1 : (enc.length : Int) ≤ (c : Int) + 1
      · rw [v2rleLoop, dif_pos hrem, if_pos hg1]
        exact ⟨_, rfl⟩
      · have hc1 : c + 1 < enc.length := by omega
        have hb1 : enc.get? c = some (enc.get ⟨c, by omega⟩) := List.get?_eq_get (by omega)
        have hb2 : enc.get? (c + 1) = some (enc.get ⟨c + 1, hc1⟩) := List.get?_eq_get hc1
        by_cases hz : enc.get ⟨c, by omega⟩ ||| enc.get ⟨c + 1, hc1⟩ = 0
        · obtain ⟨r, hr⟩ := ih (remaining - 2) (by omega) pixels X Y vOff w 0 (y + 1)
            (c + 2) hX hY hw (by omega) (by omega) (by omega) (by push_cast; omega) hbound
          refine ⟨r, ?_⟩
          rw [v2rleLoop, dif_pos hrem, if_neg hg1]
          simp only [hb1, hb2, if_pos hz]
          exact hr
        · by_cases hg2 : (enc.length : Int) < (c : Int) + 2 + (enc.get ⟨c + 1, hc1⟩ : Nat)
          · rw [v2rleLoop, dif_pos hrem, if_neg hg1]
            simp only [hb1, hb2, if_neg hz, if_pos hg2]
            exact ⟨_, rfl⟩
          · obtain ⟨p', c', x', y', heq, hlen, hc', hx', hy', hyA, hyB⟩ := v2rleRun_safe enc
              Ymax (enc.get ⟨c + 1, hc1⟩) pixels X Y vOff w
              (x + (enc.get ⟨c, by omega⟩ : Nat)) y (c + 2) hX hY hw (by positivity)
              hy (by push_cast; omega) hbound (by omega)
            obtain ⟨r, hr⟩ := ih (goMax 0 (remaining - 2 - (enc.get ⟨c + 1, hc1⟩ : Nat)))
              (by rw [goMax]; split <;> omega) p' X Y vOff w x' y' c' hX hY hw hx' hy'
              (by omega)
              (by rw [goMax]; split <;> push_cast at hyB ⊢ <;> omega) hbound
            refine ⟨r, ?_⟩
            rw [v2rleLoop, dif_pos hrem, if_neg hg1]
            simp only [hb1, hb2, if_neg hz, if_neg hg2, heq]
            exact hr
    · rw [v2rleLoop, dif_neg hrem]
      exact ⟨_, rfl⟩

/-! ## Claims -/

/-- C10: for every pkg `Block` with a non-nil `image` of bounds width `w`
and all integer coordinates, `ColorIndexAt` never indexes `PixelData` out
of bounds (the result is always `some`); a negative computed index behaves
as the clamped index 0, an index at or past the end of `PixelData` returns
palette index 0, and an empty `PixelData` always returns 0. -/
theorem claim_C10 (w : Int) (PixelData : List Nat) (x y : Int) :
    (ColorIndexAt w PixelData x y).isSome = true ∧
    (y * w + x < 0 → ColorIndexAt w PixelData x y = ColorIndexAt w PixelData 0 0) ∧
    (0 ≤ y * w + x → (PixelData.length : Int) ≤ y * w + x →
      ColorIndexAt w PixelData x y = some 0) ∧
    (PixelData = [] → ColorIndexAt w PixelData x y = some 0) := by
  refine ⟨?_, ?_, ?_, ?_⟩
  · by_cases hneg : y * w + x < 0
    · simp only [ColorIndexAt, if_pos hneg]
      by_cases hl : (PixelData.length : Int) ≤ 0
      · rw [if_pos hl]; rfl
      · rw [if_neg hl]
        have hlt : 0 < PixelData.length := by omega
        simp [List.get?_eq_getElem?, List.getElem?_eq_getElem hlt]
    · simp only [ColorIndexAt, if_neg hneg]
      by_cases hl : (PixelData.length : Int) ≤ y * w + x
      · rw [if_pos hl]; rfl
      · rw [if_neg hl]
        have hlt : (y * w + x).toNat < PixelData.length := by omega
        simp [List.get?_eq_getElem?, List.getElem?_eq_getElem hlt]
  · intro hneg
    simp [ColorIndexAt, hneg]
  · intro h0 hlen
    simp only [ColorIndexAt]
    rw [if_neg (by omega : ¬ (y * w + x < 0)), if_pos hlen]
  · intro hnil
    subst hnil
    simp only [ColorIndexAt]
    rw [if_pos (by simp only [List.length_nil, Nat.cast_zero]; split <;> omega)]

/-- Witness for C10 at concrete inputs: a negative index on a non-empty
buffer is safe, and an empty buffer yields 0. -/
theorem claim_C10_witness :
    (ColorIndexAt 4 [9, 8, 7] 1 (-1)).isSome = true ∧
    ColorIndexAt 4 [] 100 100 = some 0 :=
  ⟨(claim_C10 4 [9, 8, 7] 1 (-1)).1, (claim_C10 4 [] 100 100).2.2.2 rfl⟩

/-- C4: a 16-bit block format tag equal to 1 decodes to the Isometric
format and every other tag decodes to RLE; a non-1 block is dispatched to
the RLE decoder by `DecodeTileGfxData` (never rejected, never left
undecoded). -/
theorem claim_C4 (b : Block) (pixels : List Nat) (tileYOffset tileWidth : Int) :
    (b.format = 1 → b.Format = BlockFormatIsometric) ∧
    (b.format ≠ 1 →
      b.Format = BlockFormatRLE ∧
      DecodeTileGfxDataBlock b pixels tileYOffset tileWidth =
        (rleLoop b.EncodedData pixels b.X b.Y tileYOffset tileWidth 0 0 0 b.Length).map
          (fun r => (r.1, r.2.1))) := by
  refine ⟨fun h => by simp [Block.Format, h], fun h => ?_⟩
  have hf : b.Format = BlockFormatRLE := by simp [Block.Format, h]
  exact ⟨hf, by rw [DecodeTileGfxDataBlock, hf]⟩

/-- Witness for C4: the unknown tag 5 maps to RLE. -/
theorem claim_C4_witness :
    ({ defaultBlock with format := 5 } : Block).Format = BlockFormatRLE :=
  ((claim_C4 { defaultBlock with format := 5 } [] 0 0).2 (by decide)).1

/-- C1 (amended): the per-tile vertical offset of `makePixelBuffer` equals
the absolute value of the minimum of 0 and the blocks' minimum `Y`; in
particular it equals the absolute value of the minimum block `Y` whenever
that minimum is non-positive, and it is 0 (not the absolute minimum) when
every block `Y` is positive. -/
theorem claim_C1 (blocks : List Block) (m : Int)
    (hmem : m ∈ blocks.map Block.Y)
    (hmin : ∀ y ∈ blocks.map Block.Y, m ≤ y) :
    (m ≤ 0 → tileYOffsetOf blocks = AbsInt32 m) ∧
    (0 < m → tileYOffsetOf blocks = 0) := by
  have hfold : blocks.foldl (fun acc b => MinInt32 acc b.Y) 0
      = (blocks.map Block.Y).foldl MinInt32 0 := by
    rw [List.foldl_map]
  have hub := foldl_MinInt32_le (blocks.map Block.Y) 0
  have hFm : (blocks.map Block.Y).foldl MinInt32 0 ≤ m := hub.2 m hmem
  have hF0 : (blocks.map Block.Y).foldl MinInt32 0 ≤ 0 := hub.1
  constructor
  · intro hm0
    have hge : m ≤ (blocks.map Block.Y).foldl MinInt32 0 :=
      le_foldl_MinInt32 _ 0 m hm0 hmin
    have hFm' : (blocks.map Block.Y).foldl MinInt32 0 = m := le_antisymm hFm hge
    rw [tileYOffsetOf, hfold, hFm']
  · intro hm
    have h0le : (0 : Int) ≤ (blocks.map Block.Y).foldl MinInt32 0 :=
      le_foldl_MinInt32 _ 0 0 le_rfl (fun y hy => le_trans (le_of_lt hm) (hmin y hy))
    have hFm' : (blocks.map Block.Y).foldl MinInt32 0 = 0 := le_antisymm hF0 h0le
    rw [tileYOffsetOf, hfold, hFm']
    decide

/-- Witness for C1 (amended) at a tile whose minimum block `Y` is -5. -/
theorem claim_C1_witness :
    tileYOffsetOf [{ defaultBlock with Y := -5 }, { defaultBlock with Y := 2 }] =
      AbsInt32 (-5) :=
  (claim_C1 [{ defaultBlock with Y := -5 }, { defaultBlock with Y := 2 }] (-5)
    (by decide) (by decide)).1 (by decide)

/-- Counterexample to C1 as stated: for a tile whose single block has
`Y = 3` (so the minimum block `Y` is 3), the computed offset is 0, not
the absolute value 3 of the minimum block `Y`. -/
theorem claim_C1_counterexample :
    ((3 : Int) ∈ [({ defaultBlock with Y := 3 } : Block)].map Block.Y ∧
      ∀ y ∈ [({ defaultBlock with Y := 3 } : Block)].map Block.Y, (3 : Int) ≤ y) ∧
    tileYOffsetOf [{ defaultBlock with Y := 3 }] = 0 ∧
    tileYOffsetOf [{ defaultBlock with Y := 3 }] ≠ AbsInt32 3 := by
  decide

/-- C3: for every buffer of at least 8 bytes, decoding fails with a version
error and yields no container whenever the first two little-endian 32-bit
fields are not exactly the pair (7, 6); when they are (7, 6), the version
check passes (no version error) and the cursor proceeds past the version
fields. -/
theorem claim_C3 (data : List Nat) (h8 : 8 ≤ data.length) :
    (¬ (field32 data 0 = 7 ∧ field32 data 4 = 6) →
      decodeDT1Version ⟨data, 0⟩ = none ∧ FromBytes data = none) ∧
    ((field32 data 0 = 7 ∧ field32 data 4 = 6) →
      decodeDT1Version ⟨data, 0⟩ = some ⟨data, 8⟩) := by
  have hv := decodeDT1Version_eq data h8
  constructor
  · intro hne
    have hcond : field32 data 0 ≠ 7 ∨ field32 data 4 ≠ 6 := by tauto
    have hvn : decodeDT1Version ⟨data, 0⟩ = none := by rw [hv, if_pos hcond]
    exact ⟨hvn, by simp [FromBytes, decodeDT1Header, hvn]⟩
  · intro heq
    rw [hv, if_neg (by tauto)]

/-- Witness for C3: the version pair (9, 6) is rejected with no container,
and the version pair (7, 6) passes the version check. -/
theorem claim_C3_witness :
    FromBytes [9, 0, 0, 0, 6, 0, 0, 0] = none ∧
    decodeDT1Version ⟨[7, 0, 0, 0, 6, 0, 0, 0], 0⟩ =
      some ⟨[7, 0, 0, 0, 6, 0, 0, 0], 8⟩ :=
  ⟨((claim_C3 [9, 0, 0, 0, 6, 0, 0, 0] (by norm_num)).1 (by decide)).2,
   (claim_C3 [7, 0, 0, 0, 6, 0, 0, 0] (by norm_num)).2 (by decide)⟩

/-- C5: the RLE payload [3, 2, 0xAA, 0xBB] at block position (0,0) with
zero vertical offset and tile width at least 5 writes 0xAA at pixel 3 and
0xBB at pixel 4 of a zero-initialised buffer of size at least 5, leaves
every other pixel 0, and consumes exactly its 4 payload bytes. -/
theorem claim_C5 (w : Int) (N : Nat) (hw : 5 ≤ w) (hN : 5 ≤ N) :
    rleLoop [3, 2, 170, 187] (List.replicate N 0) 0 0 0 w 0 0 0 4 =
      some ((((List.replicate N 0).set 3 170).set 4 187), 4, 5, 0) ∧
    (((List.replicate N 0).set 3 170).set 4 187).get? 3 = some 170 ∧
    (((List.replicate N 0).set 3 170).set 4 187).get? 4 = some 187 ∧
    (∀ p, p < N → p ≠ 3 → p ≠ 4 →
      (((List.replicate N 0).set 3 170).set 4 187).get? p = some 0) := by
  have h3 : 3 < N := by omega
  have h4 : 4 < N := by omega
  refine ⟨?_, ?_, ?_, ?_⟩
  · simp [rleLoop, rleRun, h3, h4]
  · rw [List.get?_eq_getElem?, List.getElem?_set_ne (by omega),
      List.getElem?_set_eq_of_lt _ (by simp; omega)]
  · rw [List.get?_eq_getElem?, List.getElem?_set_eq_of_lt _ (by simp; omega)]
  · intro p hp hp3 hp4
    rw [List.get?_eq_getElem?, List.getElem?_set_ne (by omega),
      List.getElem?_set_ne (by omega)]
    simp [List.getElem?_replicate, hp]

/-- Witness for C5 at tile width 5 and buffer size 5. -/
theorem claim_C5_witness :
    rleLoop [3, 2, 170, 187] (List.replicate 5 0) 0 0 0 5 0 0 0 4 =
      some ((((List.replicate 5 0).set 3 170).set 4 187), 4, 5, 0) :=
  (claim_C5 5 5 (by norm_num) (by norm_num)).1

/-- C2: for every Isometric-format block whose 256-byte payload is the
constant value V (0 < V < 256) and whose placement keeps every computed
pixel offset inside the tile-sized buffer, the isometric decoder writes
exactly the 15 diamond rows — row r holding nbpix[r] pixels
([4,8,12,16,20,24,28,32,28,24,20,16,12,8,4]) starting at left inset
xjump[r] ([14,12,10,8,6,4,2,0,2,4,6,8,10,12,14]), i.e. exactly the offsets
`isoOffset` r k with k < nbpixN r — each written pixel equals V, every
other pixel of the zero-initialised buffer stays 0, and exactly 256
payload bytes are consumed. -/
theorem claim_C2 (V : Nat) (b : Block) (tileYOffset tileWidth : Int) (N : Nat)
    (hV0 : 0 < V) (hV : V < 256)
    (hfmt : b.Format = BlockFormatIsometric)
    (henc : b.EncodedData = List.replicate 256 V)
    (hin : ∀ r, r < 15 → ∀ k, k < nbpixN r →
      0 ≤ isoOffset b.X b.Y tileYOffset tileWidth r k ∧
      (isoOffset b.X b.Y tileYOffset tileWidth r k).toNat < N) :
    ∃ pixels', DecodeTileGfxDataBlock b (List.replicate N 0) tileYOffset tileWidth =
        some (pixels', 256) ∧
      pixels'.length = N ∧
      ∀ p, p < N →
        ((∃ r, r < 15 ∧ ∃ k, k < nbpixN r ∧
            (p : Int) = isoOffset b.X b.Y tileYOffset tileWidth r k) →
          pixels'.get? p = some V) ∧
        ((∀ r, r < 15 → ∀ k, k < nbpixN r →
            (p : Int) ≠ isoOffset b.X b.Y tileYOffset tileWidth r k) →
          pixels'.get? p = some 0) := by
  obtain ⟨pixels', hloop, hlen, hchar⟩ := isoLoop_spec b.EncodedData V b.X b.Y
    tileYOffset tileWidth N
    (fun j hj => by
      rw [henc, List.get?_eq_getElem?, List.getElem?_replicate, if_pos hj])
    15 0 (by norm_num) (by norm_num)
    (List.replicate N 0) 0 (by simp) (by decide)
    (fun r _ hr15 k hk => hin r hr15 k hk)
  refine ⟨pixels', ?_, hlen, ?_⟩
  · simp only [DecodeTileGfxDataBlock, hfmt]
    rw [show (256 : Int) = nbpixSumFrom 0 by decide]
    exact hloop
  · intro p hp
    constructor
    · rintro ⟨r, hr15, k, hk, hpk⟩
      exact (hchar p).1 ⟨r, by omega, hr15, k, hk, hpk⟩
    · intro hne
      rw [(hchar p).2 (fun r _ hr15 k hk => hne r hr15 k hk)]
      rw [List.get?_eq_getElem?]
      simp [List.getElem?_replicate, hp]

/-- Witness for C2 at V = 7, block (0,0), zero offset, tile width 32 and a
480-pixel buffer. -/
theorem claim_C2_witness :
    ∃ pixels', DecodeTileGfxDataBlock ⟨0, 0, 0, 0, 1, List.replicate 256 7, 256, 0, []⟩
        (List.replicate 480 0) 0 32 = some (pixels', 256) ∧
      pixels'.length = 480 ∧
      ∀ p : Nat, p < 480 →
        ((∃ r, r < 15 ∧ ∃ k, k < nbpixN r ∧ (p : Int) = isoOffset 0 0 0 32 r k) →
          pixels'.get? p = some 7) ∧
        ((∀ r, r < 15 → ∀ k, k < nbpixN r → (p : Int) ≠ isoOffset 0 0 0 32 r k) →
          pixels'.get? p = some 0) :=
  claim_C2 7 ⟨0, 0, 0, 0, 1, List.replicate 256 7, 256, 0, []⟩ 0 32 480
    (by decide) (by decide) (by decide) rfl (by decide)

/-- C9 (amended): for every v2 block with non-negative `X`, non-negative
rebased vertical position `Y + verticalOffset` and non-negative
`imageWidth`, whose parameters additionally keep every int32 pixel-offset
computation below `2^31` (no int32 overflow: for the isometric decoder
`(Y + verticalOffset + 14) * imageWidth + X + 46 < 2^31`, and for the RLE
decoder `(Y + verticalOffset + (len EncodedData + Length)) * imageWidth +
(X + imageWidth) < 2^31`), the guarded v2 `decodeIsometric` and
`decodeRunLengthEncoded` complete without any out-of-bounds access to
`EncodedData` or `PixelData` (the result is `some`), for arbitrary
`EncodedData` contents, arbitrary `Length` and arbitrary `PixelData`
size. -/
theorem claim_C9 (b : Block) (imageWidth verticalOffset : Int)
    (hX : 0 ≤ b.X) (hY : 0 ≤ b.Y + verticalOffset) (hw : 0 ≤ imageWidth)
    (hiso : (b.Y + verticalOffset + 14) * imageWidth + (b.X + 46) < 2 ^ 31)
    (hrle : (b.Y + verticalOffset + ((b.EncodedData.length : Int) + b.Length)) * imageWidth +
      (b.X + imageWidth) < 2 ^ 31) :
    (v2decodeIsometric b imageWidth verticalOffset).isSome = true ∧
    (v2decodeRunLengthEncoded b imageWidth verticalOffset).isSome = true := by
  constructor
  · obtain ⟨r, hr⟩ := v2isoLoop_safe b.EncodedData 15 0 (by norm_num) (le_refl 0)
      b.PixelData b.X b.Y verticalOffset imageWidth 256 0 hX hY hw hiso (by omega)
    rw [v2decodeIsometric, hr]
    rfl
  · obtain ⟨r, hr⟩ := v2rleLoop_safe b.EncodedData ((b.EncodedData.length : Int) + b.Length)
      b.Length.toNat b.Length (le_refl _)
      b.PixelData b.X b.Y verticalOffset imageWidth 0 0 0 hX hY hw (le_refl 0)
      (le_refl 0) (by omega) (by push_cast; omega) hrle
    rw [v2decodeRunLengthEncoded, hr]
    rfl

/-- Witness for C9 (amended) at a concrete malformed block (3 payload
bytes, claimed length 7, 2-pixel buffer): both decoders return without
out-of-bounds access. -/
theorem claim_C9_witness :
    (v2decodeIsometric ⟨0, 0, 0, 0, 1, [1, 2, 3], 7, 0, [0, 0]⟩ 2 0).isSome = true ∧
    (v2decodeRunLengthEncoded ⟨0, 0, 0, 0, 1, [1, 2, 3], 7, 0, [0, 0]⟩ 2 0).isSome = true :=
  claim_C9 ⟨0, 0, 0, 0, 1, [1, 2, 3], 7, 0, [0, 0]⟩ 2 0 (by decide) (by decide) (by decide)
    (by decide) (by decide)

/-- Counterexample to C9 as stated: with `X = 0`, `Y = 0`,
`verticalOffset = 2^31 - 16` and `imageWidth = 4` — satisfying the claim's
sign hypotheses — the wrapping int32 offset of the first written pixel is
negative (`(2^31 - 16) * 4 + 14` wraps to `-50`, and `(2^31 - 16) * 4 + 1`
wraps to `-63`), the upper-bound-only guard does not catch it, and both
decoders hit an out-of-bounds `PixelData` access (`none`, the Go panic). -/
theorem claim_C9_counterexample :
    ((0 : Int) ≤ (⟨0, 0, 0, 0, 1, List.replicate 4 1, 256, 0,
        List.replicate 100 0⟩ : Block).X ∧
      0 ≤ (⟨0, 0, 0, 0, 1, List.replicate 4 1, 256, 0,
        List.replicate 100 0⟩ : Block).Y + (2 ^ 31 - 16) ∧
      (0 : Int) ≤ 4) ∧
    v2decodeIsometric ⟨0, 0, 0, 0, 1, List.replicate 4 1, 256, 0, List.replicate 100 0⟩
      4 (2 ^ 31 - 16) = none ∧
    v2decodeRunLengthEncoded ⟨0, 0, 0, 0, 0, [1, 1, 9], 4, 0, List.replicate 100 0⟩
      4 (2 ^ 31 - 16) = none := by
  refine ⟨⟨by decide, by norm_num, by norm_num⟩, ?_, ?_⟩
  · have hrun : v2isoRun (List.replicate 4 1) (List.replicate 100 0) 0 0 (2 ^ 31 - 16) 4
        0 14 ((4 : Int)).toNat 0 = none := by decide
    rw [v2decodeIsometric, v2isoLoop]
    rw [if_pos (by norm_num : (0 : Int) < 256)]
    rw [if_neg (by norm_num : ¬ ((15 : Int) ≤ 0 ∨ (15 : Int) ≤ 0))]
    rw [show listGetI xjump 0 = some 14 from rfl, show listGetI nbpix 0 = some 4 from rfl]
    simp only [if_neg (by norm_num :
      ¬ (((List.replicate 4 1 : List Nat).length : Int) < ((0 : Nat) : Int) + 4)), hrun]
    rfl
  · have hrun : v2rleRun [1, 1, 9] (List.replicate 100 0) 0 0 2147483632 4
        1 0 1 2 = none := by decide
    rw [v2decodeRunLengthEncoded]
    show Option.map (fun r => r.1)
      (v2rleLoop [1, 1, 9] (List.replicate 100 0) 0 0 (2 ^ 31 - 16) 4 0 0 0 4) = none
    rw [v2rleLoop]
    norm_num
    rw [hrun]

/-- C7: after the tile-header pass succeeds, every tile has exactly as many
block slots as the 32-bit block count stored at byte 80 of its 96-byte tile
header; the block-header pass, the block-body pass and the pixel
reconstruction pass all preserve each tile's block count (they populate the
existing slots, never adding or removing blocks). -/
theorem claim_C7 :
    (∀ (data : List Nat) (p : Nat) (numTiles : Nat) (tiles : List Tile) (s' : BStream),
      decodeTilesStage1 ⟨data, (p : Int)⟩ numTiles = some (tiles, s') →
      tiles.length = numTiles ∧
      ∀ i t, tiles.get? i = some t →
        (t.Blocks.length : Int) = field32 data (p + 96 * i + 80)) ∧
    (∀ (s : BStream) (tiles tiles' : List Tile) (s' : BStream),
      decodeTilesStage2 s tiles = some (tiles', s') →
      tiles'.length = tiles.length ∧
      ∀ i t t', tiles.get? i = some t → tiles'.get? i = some t' →
        t'.Blocks.length = t.Blocks.length) ∧
    (∀ (tiles tiles' : List Tile),
      decodeTileGraphics tiles = some tiles' →
      tiles'.length = tiles.length ∧
      ∀ i t t', tiles.get? i = some t → tiles'.get? i = some t' →
        t'.Blocks.length = t.Blocks.length) := by
  refine ⟨?_, ?_, ?_⟩
  · intro data p numTiles tiles s' h
    have hs := decodeTilesStage1_spec data numTiles (p : Int) tiles s' (by positivity) h
    refine ⟨hs.1, ?_⟩
    intro i t ht
    have hv := hs.2 i t ht
    rwa [show ((p : Int) + 96 * i + 80).toNat = p + 96 * i + 80 by omega] at hv
  · intro s tiles tiles' s' h
    exact decodeTilesStage2_spec tiles s tiles' s' h
  · intro tiles tiles' h
    rw [decodeTileGraphics] at h
    exact decodeTileGraphicsLoop_spec tiles (determineYOffsetPkg tiles) tiles' h

/-- Witness for C7: a one-tile fixture whose header stores block count 2,
a two-block header/body pass over 40 bytes, and a graphics pass, all at
concrete inputs. -/
theorem claim_C7_witness :
    ((⟨0, 0, 0, 0, 0, 0, 0, 0, 0, List.replicate 25 0, 0, 0,
        List.replicate 2 defaultBlock⟩ : Tile).Blocks.length : Int) =
      field32 (List.replicate 80 0 ++ [2, 0, 0, 0] ++ List.replicate 12 0) 80 ∧
    ([(⟨0, 0, 0, 0, 0, 0, 0, 0, 0, [], 0, 0, List.replicate 2 defaultBlock⟩ : Tile)].length = 1 ∧
      (⟨0, 0, 0, 0, 0, 0, 0, 0, 0, [], 0, 0, List.replicate 2 defaultBlock⟩ : Tile).Blocks.length =
        (⟨0, 0, 0, 0, 0, 0, 0, 0, 0, [], 0, 0, List.replicate 2 defaultBlock⟩ : Tile).Blocks.length) ∧
    ([(⟨0, 0, 0, 0, 0, 0, 0, 0, 0, [], 0, 0, [defaultBlock]⟩ : Tile)].length = 1 ∧
      (⟨0, 0, 0, 0, 0, 0, 0, 0, 0, [], 0, 0, [defaultBlock]⟩ : Tile).Blocks.length =
        (⟨0, 0, 0, 0, 0, 0, 0, 0, 0, [], 0, 0, [defaultBlock]⟩ : Tile).Blocks.length) := by
  refine ⟨?_, ?_, ?_⟩
  · exact (claim_C7.1 (List.replicate 80 0 ++ [2, 0, 0, 0] ++ List.replicate 12 0) 0 1
      [⟨0, 0, 0, 0, 0, 0, 0, 0, 0, List.replicate 25 0, 0, 0, List.replicate 2 defaultBlock⟩]
      ⟨List.replicate 80 0 ++ [2, 0, 0, 0] ++ List.replicate 12 0, 96⟩ (by decide)).2 0
      ⟨0, 0, 0, 0, 0, 0, 0, 0, 0, List.replicate 25 0, 0, 0, List.replicate 2 defaultBlock⟩ rfl
  · have h := claim_C7.2.1 ⟨List.replicate 40 0, 0⟩
      [⟨0, 0, 0, 0, 0, 0, 0, 0, 0, [], 0, 0, List.replicate 2 defaultBlock⟩]
      [⟨0, 0, 0, 0, 0, 0, 0, 0, 0, [], 0, 0, List.replicate 2 defaultBlock⟩]
      ⟨List.replicate 40 0, 0⟩ (by decide)
    exact ⟨h.1, h.2 0 _ _ rfl rfl⟩
  · have h := claim_C7.2.2
      [⟨0, 0, 0, 0, 0, 0, 0, 0, 0, [], 0, 0, [defaultBlock]⟩]
      [⟨0, 0, 0, 0, 0, 0, 0, 0, 0, [], 0, 0, [defaultBlock]⟩]
      (by simp [decodeTileGraphics, decodeTileGraphicsLoop, decodeTileGraphicsTile,
        tileBlocksGraphics, decodeBlockGraphics, determineYOffsetPkg, rleLoop, defaultBlock])
    exact ⟨h.1, h.2 0 _ _ rfl rfl⟩

/-- C8: the block-header decode of a tile succeeds exactly when, for every
block slot `i`, the 4-byte `fileOffset` field at bytes
`blockHeaderPointer + 20*i + 16 .. + 20` is readable: only a failure of
that final per-block read is propagated as fatal, while failures of the
earlier per-block field reads (x, y, skip, gridX, gridY, format tag,
length, skip) are discarded and never decide the outcome. -/
theorem claim_C8 (s : BStream) (t : Tile) :
    (decodeBlockHeaders s t).isSome = true ↔
      ∀ i < t.Blocks.length,
        0 ≤ t.blockHeaderPointer + 20 * i + 16 ∧
        t.blockHeaderPointer + 20 * i + 20 ≤ (s.data.length : Int) := by
  have hiff := decodeBlockHeadersLoop_isSome_iff s.data t.Blocks.length t.blockHeaderPointer
  rw [decodeBlockHeaders, bsSetPosition]
  rcases h : decodeBlockHeadersLoop ⟨s.data, t.blockHeaderPointer⟩ t.Blocks.length
    with _ | ⟨bs, s'⟩ <;> rw [h] at hiff <;> simpa using hiff

/-- Witness for C8: a 20-byte buffer decodes one block header. -/
theorem claim_C8_witness :
    (decodeBlockHeaders ⟨List.replicate 20 0, 0⟩
      ⟨0, 0, 0, 0, 0, 0, 0, 0, 0, [], 0, 0, [defaultBlock]⟩).isSome = true :=
  (claim_C8 ⟨List.replicate 20 0, 0⟩ ⟨0, 0, 0, 0, 0, 0, 0, 0, 0, [], 0, 0, [defaultBlock]⟩).mpr
    (by decide)

/-- C6: an RLE payload of `k` zero pairs with `Length = 2k` terminates,
writes nothing (the zero-initialised buffer is returned unchanged), ends
with row cursor `y = k` and column cursor `x = 0`, and consumes exactly the
`2k` pair bytes. -/
theorem claim_C6 (blockX blockY tileYOffset tileWidth : Int) (k N : Nat) :
    rleLoop (List.replicate (2 * k) 0) (List.replicate N 0) blockX blockY tileYOffset
        tileWidth 0 0 0 (2 * (k : Int)) =
      some (List.replicate N 0, 2 * k, 0, (k : Int)) := by
  have h := rleLoop_allZero (List.replicate (2 * k) 0) (List.replicate N 0)
    blockX blockY tileYOffset tileWidth k 0 0
    (fun j hj => by
      rw [List.get?_eq_getElem?]
      simp [List.getElem?_replicate, hj])
  simpa using h

end Dt1
